import Mathlib

/-!
# Verification of the Text-Formatter placeholder substitution engine

Shallow embedding of `src/main.go` (Greatuyi/Text-Formatter).  Text is
modelled as `List Char`.  The Go regex passes (`ReplaceAllStringFunc` with
leftmost, non-overlapping matches) are modelled as explicit left-to-right
scanners; each scanner's doc comment explains how it simulates the regex.
Go's `time.Parse`/`Format` with the two accepted layouts is modelled by
`parseGoTime` and the `fmt*` functions.  The CSV loader `loadAirportData`
is modelled as a fold over pre-split rows, including the package-global
`airportMap` state it mutates.
-/

namespace TextFormatter

/-- ASCII uppercase letter, the Go regex character class `[A-Z]`. -/
def isUpperAZ (c : Char) : Bool := 'A' ≤ c && c ≤ 'Z'

/-- Characters of Go `unicode.IsSpace` (the White_Space property), used by
`strings.Fields` and `strings.TrimSpace`. -/
def isGoSpace (c : Char) : Bool :=
  (9 ≤ c.toNat && c.toNat ≤ 13) || c.toNat = 32 || c.toNat = 0x85 || c.toNat = 0xA0 ||
  c.toNat = 0x1680 || (0x2000 ≤ c.toNat && c.toNat ≤ 0x200A) ||
  c.toNat = 0x2028 || c.toNat = 0x2029 || c.toNat = 0x202F || c.toNat = 0x205F ||
  c.toNat = 0x3000

/-- Go `strings.TrimSpace`: drop whitespace from both ends. -/
def trimSpace (l : List Char) : List Char :=
  ((l.dropWhile isGoSpace).reverse.dropWhile isGoSpace).reverse

/-- ASCII case folding of Go `strings.ToLower` (header names are ASCII). -/
def asciiLower (c : Char) : Char :=
  if isUpperAZ c then Char.ofNat (c.toNat + 32) else c

/-- `Airport` (src/main.go lines 28-35). -/
structure Airport where
  name : List Char
  isoCountry : List Char
  municipality : List Char
  icaoCode : List Char
  iataCode : List Char
  coordinates : List Char
deriving Repr, DecidableEq, Inhabited

/-- The `airportMap` global: an association list where the entry closest to
the head shadows later ones, so prepending models Go map overwrite. -/
abbrev AirportMap := List (List Char × Airport)

/-- Go map lookup `airportMap[code]`. -/
def lookupAirport (m : AirportMap) (code : List Char) : Option Airport :=
  (m.find? (fun p => p.1 == code)).map (·.2)

/-- `plainAirport` (line 236): the airport name. -/
def plainAirport (a : Airport) : List Char := a.name

/-- `plainCity` (line 241): municipality if non-blank, else the name. -/
def plainCity (a : Airport) : List Char :=
  if trimSpace a.municipality ≠ [] then a.municipality else plainAirport a

/-- ANSI escape character `\033`. -/
def escCh : Char := Char.ofNat 27

def colorReset : List Char := [escCh, '[', '0', 'm']
def colorGreen : List Char := [escCh, '[', '3', '2', 'm']
def colorCyan : List Char := [escCh, '[', '3', '6', 'm']
def colorMagenta : List Char := [escCh, '[', '3', '5', 'm']
def colorYellow : List Char := [escCh, '[', '3', '3', 'm']

/-- `highlightAirport` (line 353): name wrapped in green. -/
def highlightAirport (a : Airport) : List Char :=
  colorGreen ++ a.name ++ colorReset

/-- `highlightCity` (line 358): municipality in cyan if non-blank, else the
name in green. -/
def highlightCity (a : Airport) : List Char :=
  if trimSpace a.municipality ≠ [] then colorCyan ++ a.municipality ++ colorReset
  else colorGreen ++ a.name ++ colorReset

/-- One pass of `iataRegex.ReplaceAllStringFunc` for `(\*?)#([A-Z]{3})`
(lines 206-217 and 323-334, with the two rendering functions as
parameters).  The regex engine finds leftmost non-overlapping matches and
resumes after the replaced text; the scanner walks left to right, attempts
a match at each position (a `*` can only participate when immediately
followed by `#` and three uppercase letters, since with the empty optional
`*?` a match must begin at `#`), and on a lookup miss re-emits the matched
text unchanged. -/
def iataScan (m : AirportMap) (rName rCity : Airport → List Char) :
    List Char → List Char
  | '*' :: '#' :: a :: b :: c :: rest =>
      if isUpperAZ a && isUpperAZ b && isUpperAZ c then
        (match lookupAirport m [a, b, c] with
         | some ap => rCity ap
         | none => ['*', '#', a, b, c]) ++ iataScan m rName rCity rest
      else
        '*' :: iataScan m rName rCity ('#' :: a :: b :: c :: rest)
  | '#' :: a :: b :: c :: rest =>
      if isUpperAZ a && isUpperAZ b && isUpperAZ c then
        (match lookupAirport m [a, b, c] with
         | some ap => rName ap
         | none => ['#', a, b, c]) ++ iataScan m rName rCity rest
      else
        '#' :: iataScan m rName rCity (a :: b :: c :: rest)
  | c :: rest => c :: iataScan m rName rCity rest
  | [] => []

/-- One pass of `icaoRegex.ReplaceAllStringFunc` for `(\*?)##([A-Z]{4})`
(lines 220-231 and 337-348), same simulation as `iataScan`. -/
def icaoScan (m : AirportMap) (rName rCity : Airport → List Char) :
    List Char → List Char
  | '*' :: '#' :: '#' :: a :: b :: c :: d :: rest =>
      if isUpperAZ a && isUpperAZ b && isUpperAZ c && isUpperAZ d then
        (match lookupAirport m [a, b, c, d] with
         | some ap => rCity ap
         | none => ['*', '#', '#', a, b, c, d]) ++ icaoScan m rName rCity rest
      else
        '*' :: icaoScan m rName rCity ('#' :: '#' :: a :: b :: c :: d :: rest)
  | '#' :: '#' :: a :: b :: c :: d :: rest =>
      if isUpperAZ a && isUpperAZ b && isUpperAZ c && isUpperAZ d then
        (match lookupAirport m [a, b, c, d] with
         | some ap => rName ap
         | none => ['#', '#', a, b, c, d]) ++ icaoScan m rName rCity rest
      else
        '#' :: icaoScan m rName rCity ('#' :: a :: b :: c :: d :: rest)
  | c :: rest => c :: icaoScan m rName rCity rest
  | [] => []

/-- `plainProcessAirportCodes` (lines 204-233): IATA pass then ICAO pass,
plain renderers. -/
def plainProcessAirportCodes (m : AirportMap) (l : List Char) : List Char :=
  icaoScan m plainAirport plainCity (iataScan m plainAirport plainCity l)

/-- `processAirportCodes` (lines 321-350): IATA pass then ICAO pass,
highlight renderers. -/
def processAirportCodes (m : AirportMap) (l : List Char) : List Char :=
  icaoScan m highlightAirport highlightCity (iataScan m highlightAirport highlightCity l)

/-! ## Go `time.Parse` with layouts `2006-01-02T15:04Z` and
`2006-01-02T15:04-07:00`, and `time.Format` for the output layouts. -/

/-- A parsed timestamp: the wall-clock fields plus the fixed zone offset in
minutes (`0` for the UTC layout, whose trailing `Z` is a literal). -/
structure GoTime where
  year : Nat
  month : Nat
  day : Nat
  hour : Nat
  minute : Nat
  offMin : Int
deriving Repr, DecidableEq

/-- Digit value of an ASCII digit. -/
def digitVal? (c : Char) : Option Nat :=
  if c.isDigit then some (c.toNat - 48) else none

/-- Go `getnum(value, true)`: exactly two digits. -/
def getnum2 : List Char → Option (Nat × List Char)
  | a :: b :: rest =>
    match digitVal? a, digitVal? b with
    | some x, some y => some (10 * x + y, rest)
    | _, _ => none
  | _ => none

/-- Go `stdLongYear`: exactly four digits. -/
def getnum4 : List Char → Option (Nat × List Char)
  | a :: b :: c :: d :: rest =>
    match digitVal? a, digitVal? b, digitVal? c, digitVal? d with
    | some x, some y, some z, some w => some (1000 * x + 100 * y + 10 * z + w, rest)
    | _, _, _, _ => none
  | _ => none

/-- Go `getnum(value, false)`: one digit, or two if the second char is a
digit (the `15` hour chunk is not zero-padded-fixed). -/
def getnumFlex : List Char → Option (Nat × List Char)
  | [] => none
  | [a] => (digitVal? a).map (fun x => (x, []))
  | a :: b :: rest =>
    match digitVal? a with
    | none => none
    | some x =>
      match digitVal? b with
      | some y => some (10 * x + y, rest)
      | none => some (x, b :: rest)

/-- Consume a literal layout character. -/
def expectChar (c : Char) : List Char → Option (List Char)
  | d :: rest => if d = c then some rest else none
  | [] => none

/-- Go leap-year rule (`isLeap` in package time). -/
def isLeap (y : Nat) : Bool := y % 4 = 0 && (y % 100 ≠ 0 || y % 400 = 0)

/-- Days in a month (`daysIn` in package time). -/
def daysIn (m y : Nat) : Nat :=
  if m = 2 then (if isLeap y then 29 else 28)
  else if m = 4 ∨ m = 6 ∨ m = 9 ∨ m = 11 then 30
  else 31

/-- The common `2006-01-02T15:04` prefix of both layouts, with Go's parse
checks: month in 1..12, hour below 24, minute below 60.  Returns the
parsed fields and the unconsumed rest. -/
def parseCivil (l : List Char) : Option (Nat × Nat × Nat × Nat × Nat × List Char) :=
  (getnum4 l).bind fun (y, r1) =>
  (expectChar '-' r1).bind fun r2 =>
  (getnum2 r2).bind fun (mo, r3) =>
  if mo < 1 ∨ 12 < mo then none else
  (expectChar '-' r3).bind fun r4 =>
  (getnum2 r4).bind fun (d, r5) =>
  (expectChar 'T' r5).bind fun r6 =>
  (getnumFlex r6).bind fun (h, r7) =>
  if 24 ≤ h then none else
  (expectChar ':' r7).bind fun r8 =>
  (getnum2 r8).bind fun (mi, r9) =>
  if 60 ≤ mi then none else
  some (y, mo, d, h, mi, r9)

/-- Go's end-of-parse day-of-month validation. -/
def dayOk (d mo y : Nat) : Bool := decide (1 ≤ d) && decide (d ≤ daysIn mo y)

/-- `time.Parse("2006-01-02T15:04Z", ·)`: the `Z` is a literal layout
character, the result is in UTC (offset 0). -/
def parseZ (ts : List Char) : Option GoTime :=
  (parseCivil ts).bind fun (y, mo, d, h, mi, r) =>
  match r with
  | ['Z'] => if dayOk d mo y then some ⟨y, mo, d, h, mi, 0⟩ else none
  | _ => none

/-- `time.Parse("2006-01-02T15:04-07:00", ·)`: `stdNumColonTZ` needs a sign,
two digits, `:`, two digits, and no leftover text; no range check is made
on the offset fields. -/
def parseOffset (ts : List Char) : Option GoTime :=
  (parseCivil ts).bind fun (y, mo, d, h, mi, r) =>
  match r with
  | [s, h1, h2, col, m1, m2] =>
    if col = ':' then
      match digitVal? h1, digitVal? h2, digitVal? m1, digitVal? m2 with
      | some a, some b, some c, some e =>
        let mins : Int := ((10 * a + b) * 60 + (10 * c + e) : Nat)
        if s = '+' then (if dayOk d mo y then some ⟨y, mo, d, h, mi, mins⟩ else none)
        else if s = '-' then (if dayOk d mo y then some ⟨y, mo, d, h, mi, -mins⟩ else none)
        else none
      | _, _, _, _ => none
    else none
  | _ => none

/-- The parse cascade of the date/time replacement functions: the UTC
layout, then the numeric-offset layout. -/
def parseGoTime (ts : List Char) : Option GoTime :=
  match parseZ ts with
  | some t => some t
  | none => parseOffset ts

/-- The ASCII digit character for `k < 10`. -/
def digitCh (k : Nat) : Char := Char.ofNat (48 + k)

/-- Decimal digit accumulation: most significant first, no leading zeros
(`fuel` bounds the digit count; `n + 1` always suffices). -/
def natDigitsGo : Nat → Nat → List Char → List Char
  | 0, _, acc => acc
  | fuel + 1, n, acc =>
    if n < 10 then digitCh n :: acc
    else natDigitsGo fuel (n / 10) (digitCh (n % 10) :: acc)

/-- Decimal digits of a natural number (Go `strconv`/`time` `appendInt`). -/
def natDigits (n : Nat) : List Char := natDigitsGo (n + 1) n []

/-- Go `appendInt` with a width: zero-pad to at least `w` digits. -/
def padNum (w n : Nat) : List Char :=
  List.replicate (w - (natDigits n).length) '0' ++ natDigits n

/-- Go month abbreviations for `Format("02 Jan 2006")`. -/
def monthName (m : Nat) : List Char :=
  (["Jan", "Feb", "Mar", "Apr", "May", "Jun", "Jul", "Aug", "Sep", "Oct",
    "Nov", "Dec"].map String.data).getD (m - 1) []

/-- `t.Format("02 Jan 2006")`. -/
def fmtDate (t : GoTime) : List Char :=
  padNum 2 t.day ++ ' ' :: monthName t.month ++ ' ' :: padNum 4 t.year

/-- `t.Format("-07:00")`: sign, offset hours, `:`, offset minutes. -/
def fmtZoneNum (off : Int) : List Char :=
  (if off < 0 then '-' else '+') ::
    padNum 2 (off.natAbs / 60) ++ ':' :: padNum 2 (off.natAbs % 60)

/-- The zone post-processing shared by all four time replacement closures
(lines 275-280 etc.): `Format("-07:00")`, compare with `"Z"` (this branch
never fires, because that layout renders UTC as `+00:00`), else wrap in
parentheses. -/
def zoneParen (off : Int) : List Char :=
  let zone := fmtZoneNum off
  if zone = ['Z'] then '(' :: '+' :: '0' :: '0' :: ':' :: '0' :: '0' :: [')']
  else '(' :: zone ++ [')']

/-- `t.Format("03:04PM")`: 12-hour clock, zero-padded, with AM/PM. -/
def fmtT12core (t : GoTime) : List Char :=
  padNum 2 (if t.hour % 12 = 0 then 12 else t.hour % 12) ++
    ':' :: padNum 2 t.minute ++ (if t.hour < 12 then ['A', 'M'] else ['P', 'M'])

/-- `t.Format("15:04")`: 24-hour clock, zero-padded. -/
def fmtT24core (t : GoTime) : List Char :=
  padNum 2 t.hour ++ ':' :: padNum 2 t.minute

/-- Plain date rendering (line 261). -/
def plainDateRender (t : GoTime) : List Char := fmtDate t

/-- Plain 12-hour rendering (line 281): `"%s %s"` of time and zone. -/
def plainT12Render (t : GoTime) : List Char :=
  fmtT12core t ++ ' ' :: zoneParen t.offMin

/-- Plain 24-hour rendering (line 301). -/
def plainT24Render (t : GoTime) : List Char :=
  fmtT24core t ++ ' ' :: zoneParen t.offMin

/-- Highlighted date rendering (line 378): magenta. -/
def highlightDateRender (t : GoTime) : List Char :=
  colorMagenta ++ fmtDate t ++ colorReset

/-- Highlighted 12-hour rendering (line 398): cyan time, yellow zone. -/
def highlightT12Render (t : GoTime) : List Char :=
  colorCyan ++ fmtT12core t ++ colorReset ++ ' ' :: colorYellow ++ zoneParen t.offMin ++ colorReset

/-- Highlighted 24-hour rendering (line 418). -/
def highlightT24Render (t : GoTime) : List Char :=
  colorCyan ++ fmtT24core t ++ colorReset ++ ' ' :: colorYellow ++ zoneParen t.offMin ++ colorReset

/-- The inner character class `[0-9T:.Z+-]` of the three date/time regexes. -/
def tsChar (c : Char) : Bool :=
  c.isDigit || c = 'T' || c = ':' || c = '.' || c = 'Z' || c = '+' || c = '-'

/-- One pass of `dateRegex.ReplaceAllStringFunc` for `D\(([0-9T:.Z+-]{16,})\)`
(lines 251-262 / 368-379).  State `none`: normal scanning.  State
`some acc`: the scanner is after a literal `D(` and has accumulated the
(reversed) run of `[0-9T:.Z+-]` characters `acc`.  Since `)` is not in the
class, the greedy `{16,}` matches exactly the maximal run, which must be
followed by `)` and have length at least 16; on failure the regex resumes
one position after the failed `D`, and because neither `D` nor `(` occurs
in the class, the only position inside the emitted text where a new match
could start is a literal `D` at the very character that ended the run. -/
def dateScan (render : GoTime → List Char) :
    Option (List Char) → List Char → List Char
  | none, 'D' :: '(' :: rest => dateScan render (some []) rest
  | none, c :: rest => c :: dateScan render none rest
  | none, [] => []
  | some acc, [] => 'D' :: '(' :: acc.reverse
  | some acc, 'D' :: '(' :: rest =>
    'D' :: '(' :: acc.reverse ++ dateScan render (some []) rest
  | some acc, 'D' :: rest =>
    'D' :: '(' :: acc.reverse ++ 'D' :: dateScan render none rest
  | some acc, c :: rest =>
    if tsChar c then dateScan render (some (c :: acc)) rest
    else if c = ')' then
      if 16 ≤ acc.length then
        (match parseGoTime acc.reverse with
         | some t => render t
         | none => 'D' :: '(' :: acc.reverse ++ [')']) ++ dateScan render none rest
      else 'D' :: '(' :: acc.reverse ++ ')' :: dateScan render none rest
    else
      'D' :: '(' :: acc.reverse ++ c :: dateScan render none rest

/-- After a failed `T12(…` attempt that ended at a literal `(`: the text to
re-emit.  If the accumulated run ends in `T12`, the regex restarts a match
there, so those three characters together with the `(` are withheld as the
next match's opener; otherwise everything plus the `(` is emitted. -/
def t12FailEmit (acc : List Char) : List Char :=
  match acc with
  | '2' :: '1' :: 'T' :: acc2 => 'T' :: '1' :: '2' :: '(' :: acc2.reverse
  | _ => 'T' :: '1' :: '2' :: '(' :: acc.reverse ++ ['(']

/-- Companion to `t12FailEmit`: the scanner state after the failed attempt
(inside a fresh match if the run ended in `T12`). -/
def t12FailState (acc : List Char) : Option (List Char) :=
  match acc with
  | '2' :: '1' :: 'T' :: _ => some []
  | _ => none

/-- One pass of `time12Regex.ReplaceAllStringFunc` for
`T12\(([0-9T:.Z+-]{16,})\)` (lines 265-282 / 382-399), same simulation as
`dateScan`.  Here `T`, `1`, `2` all lie in the inner class, so after a
failed match a new match can start inside the emitted run only where the
run ends in `T12` and the character that ended the run is `(`. -/
def t12Scan (render : GoTime → List Char) :
    Option (List Char) → List Char → List Char
  | none, 'T' :: '1' :: '2' :: '(' :: rest => t12Scan render (some []) rest
  | none, c :: rest => c :: t12Scan render none rest
  | none, [] => []
  | some acc, [] => 'T' :: '1' :: '2' :: '(' :: acc.reverse
  | some acc, '(' :: rest =>
    t12FailEmit acc ++ t12Scan render (t12FailState acc) rest
  | some acc, c :: rest =>
    if tsChar c then t12Scan render (some (c :: acc)) rest
    else if c = ')' then
      if 16 ≤ acc.length then
        (match parseGoTime acc.reverse with
         | some t => render t
         | none => 'T' :: '1' :: '2' :: '(' :: acc.reverse ++ [')']) ++ t12Scan render none rest
      else 'T' :: '1' :: '2' :: '(' :: acc.reverse ++ ')' :: t12Scan render none rest
    else
      'T' :: '1' :: '2' :: '(' :: acc.reverse ++ c :: t12Scan render none rest

/-- Analogue of `t12FailEmit` for the `T24` pass. -/
def t24FailEmit (acc : List Char) : List Char :=
  match acc with
  | '4' :: '2' :: 'T' :: acc2 => 'T' :: '2' :: '4' :: '(' :: acc2.reverse
  | _ => 'T' :: '2' :: '4' :: '(' :: acc.reverse ++ ['(']

/-- Analogue of `t12FailState` for the `T24` pass. -/
def t24FailState (acc : List Char) : Option (List Char) :=
  match acc with
  | '4' :: '2' :: 'T' :: _ => some []
  | _ => none

/-- One pass of `time24Regex.ReplaceAllStringFunc` for
`T24\(([0-9T:.Z+-]{16,})\)` (lines 285-302 / 402-419). -/
def t24Scan (render : GoTime → List Char) :
    Option (List Char) → List Char → List Char
  | none, 'T' :: '2' :: '4' :: '(' :: rest => t24Scan render (some []) rest
  | none, c :: rest => c :: t24Scan render none rest
  | none, [] => []
  | some acc, [] => 'T' :: '2' :: '4' :: '(' :: acc.reverse
  | some acc, '(' :: rest =>
    t24FailEmit acc ++ t24Scan render (t24FailState acc) rest
  | some acc, c :: rest =>
    if tsChar c then t24Scan render (some (c :: acc)) rest
    else if c = ')' then
      if 16 ≤ acc.length then
        (match parseGoTime acc.reverse with
         | some t => render t
         | none => 'T' :: '2' :: '4' :: '(' :: acc.reverse ++ [')']) ++ t24Scan render none rest
      else 'T' :: '2' :: '4' :: '(' :: acc.reverse ++ ')' :: t24Scan render none rest
    else
      'T' :: '2' :: '4' :: '(' :: acc.reverse ++ c :: t24Scan render none rest

/-- `plainProcessDatesAndTimes` (lines 249-305): date pass, then 12-hour
pass, then 24-hour pass. -/
def plainProcessDatesAndTimes (l : List Char) : List Char :=
  t24Scan plainT24Render none (t12Scan plainT12Render none (dateScan plainDateRender none l))

/-- `processDatesAndTimes` (lines 366-422). -/
def processDatesAndTimes (l : List Char) : List Char :=
  t24Scan highlightT24Render none (t12Scan highlightT12Render none (dateScan highlightDateRender none l))

/-! ## Whitespace normalization (lines 425-440). -/

/-- `strings.Fields` (line 428): maximal runs of non-whitespace characters;
`acc` is the current word, reversed. -/
def fieldsGo (acc : List Char) : List Char → List (List Char)
  | [] => if acc.isEmpty then [] else [acc.reverse]
  | c :: rest =>
    if isGoSpace c then
      if acc.isEmpty then fieldsGo [] rest else acc.reverse :: fieldsGo [] rest
    else fieldsGo (c :: acc) rest

/-- `strings.Join` with a separator. -/
def joinSep (sep : List Char) : List (List Char) → List Char
  | [] => []
  | [w] => w
  | w :: ws => w ++ sep ++ joinSep sep ws

/-- `strings.Split(content, "\n")`. -/
def splitNl : List Char → List (List Char)
  | [] => [[]]
  | c :: rest =>
    if c = '\n' then [] :: splitNl rest
    else
      match splitNl rest with
      | [] => [[c]]
      | w :: ws => (c :: w) :: ws

/-- Loop body of lines 427-430: `strings.Join(strings.Fields(line), " ")`. -/
def collapseLine (line : List Char) : List Char :=
  joinSep [' '] (fieldsGo [] line)

/-- `trimHorizontalWhitespace` (lines 425-432): per newline-separated line,
split into fields and rejoin with single spaces. -/
def trimHorizontalWhitespace (l : List Char) : List Char :=
  joinSep ['\n'] ((splitNl l).map collapseLine)

/-- Is `c` one of `r`, `v`, `f` (the class of regex `\\[rvf]`)? -/
def isRVF (c : Char) : Bool := c = 'r' || c = 'v' || c = 'f'

/-- Line 436: replace every two-character sequence backslash-`r`/`v`/`f`
with a newline (leftmost, non-overlapping). -/
def escToNl : List Char → List Char
  | '\\' :: c :: rest =>
    if isRVF c then '\n' :: escToNl rest else '\\' :: escToNl (c :: rest)
  | c :: rest => c :: escToNl rest
  | [] => []

/-- Carriage return, vertical tab or form feed, the class of `[\r\v\f]`. -/
def isCtlVert (c : Char) : Bool := c.toNat = 13 || c.toNat = 11 || c.toNat = 12

/-- Line 437: replace each maximal run of CR/VT/FF control characters with
one newline; `inRun` records whether the previous character was in the
class (so the run's newline is already emitted). -/
def ctlRunsToNl (inRun : Bool) : List Char → List Char
  | [] => []
  | c :: rest =>
    if isCtlVert c then
      if inRun then ctlRunsToNl true rest else '\n' :: ctlRunsToNl true rest
    else c :: ctlRunsToNl false rest

/-- Does the text contain a two-character escape sequence backslash
followed by `r`, `v` or `f` (a match of regex `\\[rvf]`)? -/
def hasEsc : List Char → Bool
  | '\\' :: c :: rest => isRVF c || hasEsc (c :: rest)
  | _ :: rest => hasEsc rest
  | [] => false

/-- Does the text contain three consecutive newlines (a match of
`\n{3,}`)? -/
def hasTriple : List Char → Bool
  | '\n' :: '\n' :: '\n' :: _ => true
  | _ :: rest => hasTriple rest
  | [] => false

/-- Replacement text for a pending run of `k` newlines under `\n{3,}` →
`"\n\n"` (line 438). -/
def emitNl (k : Nat) : List Char :=
  if 3 ≤ k then ['\n', '\n'] else List.replicate k '\n'

/-- Line 438: collapse each maximal run of 3 or more newlines to exactly
two; `k` counts the pending newlines of the current run. -/
def collapseNl (k : Nat) : List Char → List Char
  | [] => emitNl k
  | c :: rest =>
    if c = '\n' then collapseNl (k + 1) rest
    else emitNl k ++ c :: collapseNl 0 rest

/-- `trimVerticalWhitespace` (lines 435-440): the three replacements in
source order. -/
def trimVerticalWhitespace (l : List Char) : List Char :=
  collapseNl 0 (ctlRunsToNl false (escToNl l))

/-- The whitespace-normalization post-pass as composed in
`plainProcessContent`/`highlightProcessContent`: horizontal collapse, then
vertical collapse. -/
def normalizeWhitespace (l : List Char) : List Char :=
  trimVerticalWhitespace (trimHorizontalWhitespace l)

/-- `plainProcessContent` (lines 194-200). -/
def plainProcessContent (m : AirportMap) (l : List Char) : List Char :=
  normalizeWhitespace (plainProcessDatesAndTimes (plainProcessAirportCodes m l))

/-- `highlightProcessContent` (lines 311-317). -/
def highlightProcessContent (m : AirportMap) (l : List Char) : List Char :=
  normalizeWhitespace (processDatesAndTimes (processAirportCodes m l))

/-- Removes the ANSI style markers (`ESC [ <digits> m`, one or two digits —
every marker this program emits has this shape).  Modelled from the spec:
the spec's round-trip property needs a marker-stripping operation, which
the repository itself does not define. -/
def stripAnsi : List Char → List Char
  | a :: b :: c :: d :: e :: rest =>
    if a = escCh ∧ b = '[' ∧ c.isDigit ∧ d.isDigit ∧ e = 'm' then stripAnsi rest
    else if a = escCh ∧ b = '[' ∧ c.isDigit ∧ d = 'm' then stripAnsi (e :: rest)
    else a :: stripAnsi (b :: c :: d :: e :: rest)
  | [a, b, c, d] =>
    if a = escCh ∧ b = '[' ∧ c.isDigit ∧ d = 'm' then [] else a :: stripAnsi [b, c, d]
  | a :: rest => a :: stripAnsi rest
  | [] => []

/-! ## Directory construction, `loadAirportData` (lines 114-188), modelled
as a function of the already-split header and rows.  The package-global
variable `airportMap` (line 38) is made explicit: the loader returns the
final contents of that global next to the `error` result, since the Go
code assigns and fills the global in place and leaves the rows already
processed in it when it aborts. -/

/-- The two `RecordError` / `SchemaError` families of the spec, one
constructor per `fmt.Errorf` site in `loadAirportData`. -/
inductive LoadErr where
  | missingColumn (col : List Char)
  | malformedRecord
  | emptyName
  | noCode
deriving Repr, DecidableEq

deriving instance DecidableEq for Except

/-- Is this error the spec's `SchemaError`? -/
def LoadErr.isSchema : LoadErr → Bool
  | .missingColumn _ => true
  | _ => false

/-- Lines 128-133: map from trimmed, lowercased header name to index; the
Go map overwrite on duplicate names is modelled by prepending later
entries, found first by `colIdx?`. -/
def columnMapOf (header : List (List Char)) : List (List Char × Nat) :=
  header.enum.foldl (fun cm p => (trimSpace (p.2.map asciiLower), p.1) :: cm) []

/-- `columnMap[key]`. -/
def colIdx? (cm : List (List Char × Nat)) (key : List Char) : Option Nat :=
  (cm.find? (fun p => p.1 == key)).map (·.2)

/-- Line 128. -/
def requiredColumns : List (List Char) :=
  (["name", "iso_country", "municipality", "icao_code", "iata_code",
    "coordinates"].map String.data)

/-- Lines 138-142: the first required column missing from the header. -/
def missingColumn? (cm : List (List Char × Nat)) : Option (List Char) :=
  requiredColumns.find? (fun r => (colIdx? cm r).isNone)

/-- Field of a record at a named column (the loop body's
`record[columnMap[...]]`; the checks guarantee the index is in range, the
default is never used). -/
def fieldAt (cm : List (List Char × Nat)) (record : List (List Char))
    (key : List Char) : List Char :=
  match colIdx? cm key with
  | some i => record.getD i []
  | none => []

/-- Loop body, lines 150-185: skip empty records, check field count,
non-blank name and at least one code, then insert the record under each
non-empty (untrimmed) code. -/
def processRow (cm : List (List Char × Nat)) (hlen : Nat) (m : AirportMap)
    (record : List (List Char)) : Except LoadErr AirportMap :=
  if record.length = 0 then .ok m
  else if record.length ≠ hlen then .error .malformedRecord
  else
    let name := fieldAt cm record "name".data
    let iataCode := fieldAt cm record "iata_code".data
    let icaoCode := fieldAt cm record "icao_code".data
    if trimSpace name = [] then .error .emptyName
    else if trimSpace iataCode = [] ∧ trimSpace icaoCode = [] then .error .noCode
    else
      let airport : Airport :=
        ⟨name, fieldAt cm record "iso_country".data, fieldAt cm record "municipality".data,
         icaoCode, iataCode, fieldAt cm record "coordinates".data⟩
      let m1 := if iataCode ≠ [] then (iataCode, airport) :: m else m
      let m2 := if icaoCode ≠ [] then (icaoCode, airport) :: m1 else m1
      .ok m2

/-- The record loop with the in-place global: on the first failing row the
loop aborts, returning the error and the map as filled so far. -/
def loadRows (cm : List (List Char × Nat)) (hlen : Nat) (m : AirportMap) :
    List (List (List Char)) → Except LoadErr Unit × AirportMap
  | [] => (.ok (), m)
  | r :: rs =>
    match processRow cm hlen m r with
    | .ok m' => loadRows cm hlen m' rs
    | .error e => (.error e, m)

/-- `loadAirportData` over pre-split rows.  The second component is the
final contents of the global `airportMap`: `none` when the schema check
fails before the global is even assigned (line 144 runs after the column
check), otherwise the (possibly partially filled) map. -/
def loadAirportData (header : List (List Char)) (rows : List (List (List Char))) :
    Except LoadErr Unit × Option AirportMap :=
  let cm := columnMapOf header
  match missingColumn? cm with
  | some col => (.error (.missingColumn col), none)
  | none =>
    let (res, m) := loadRows cm header.length [] rows
    (res, some m)

/-! ## Specification-side predicates and sample data used by the claims. -/

/-- Every newline-separated line of `l` is a fixed point of the horizontal
collapse. -/
def goodLines (l : List Char) : Bool :=
  (splitNl l).all (fun w => collapseLine w == w)

/-- A directory field that cannot interact with any scanner pass, style
marker, or whitespace collapse: free of `#`, `(`, escape character,
backslash and whitespace. -/
def inertField (s : List Char) : Bool :=
  s.all (fun c => !(c = '#' || c = '(' || c = escCh || c = '\\' || isGoSpace c))

/-- Spec 4.1: the header misses one of the six required logical columns
(case-insensitive, trimmed). -/
def specMissingColumn (header : List (List Char)) : Bool :=
  requiredColumns.any (fun req =>
    header.all (fun cell => !(trimSpace (cell.map asciiLower) == req)))

/-- Spec 4.1: a data row that Build must reject: non-empty, and its field
count differs from the header's, or its trimmed name is empty, or both
trimmed codes are empty. -/
def specBadRow (header : List (List Char)) (r : List (List Char)) : Bool :=
  let cm := columnMapOf header
  !r.isEmpty &&
    (!(r.length == header.length) ||
     (trimSpace (fieldAt cm r "name".data)).isEmpty ||
     ((trimSpace (fieldAt cm r "iata_code".data)).isEmpty &&
      (trimSpace (fieldAt cm r "icao_code".data)).isEmpty))

/-- The directory accumulated over a prefix of rows on which every row
succeeds (`none` if some row in the prefix fails). -/
def foldRowsOk (cm : List (List Char × Nat)) (hlen : Nat) (m : AirportMap) :
    List (List (List Char)) → Option AirportMap
  | [] => some m
  | r :: rs =>
    match processRow cm hlen m r with
    | .ok m' => foldRowsOk cm hlen m' rs
    | .error _ => none

/-- Sample record resolving IATA code `ABC`, used by counterexamples. -/
def apABC : Airport := ⟨"Nice".data, [], [], [], "ABC".data, []⟩

/-- Sample record resolving ICAO code `ABCD`. -/
def apABCD : Airport := ⟨"Quad".data, [], [], "ABCD".data, [], []⟩

/-- Directory holding both `ABC` (IATA) and `ABCD` (ICAO). -/
def mapABC : AirportMap := [("ABC".data, apABC), ("ABCD".data, apABCD)]

/-- Record whose name is the single letter `D`, used to break the
decoration round trip. -/
def apNameD : Airport := ⟨"D".data, [], [], [], "ABC".data, []⟩

/-- Directory mapping `ABC` to the name `D`. -/
def mapNameD : AirportMap := [("ABC".data, apNameD)]

/-- The six-column header in canonical order. -/
def sampleHeader : List (List Char) :=
  (["name", "iso_country", "municipality", "icao_code", "iata_code",
    "coordinates"].map String.data)

/-- A well-formed row: name `A1`, ICAO `IIII`, IATA `AAA`. -/
def sampleRow1 : List (List Char) :=
  (["A1", "c", "m", "IIII", "AAA", "co"].map String.data)

/-- A second well-formed row reusing IATA code `AAA`: name `A2`,
ICAO `JJJJ`. -/
def sampleRow2 : List (List Char) :=
  (["A2", "c", "m", "JJJJ", "AAA", "co"].map String.data)

/-- A row with an empty name. -/
def sampleRowBad : List (List Char) :=
  (["", "c", "m", "JJJJ", "BBB", "co"].map String.data)

/-! ## Character class facts -/

lemma ne_of_upper {c d : Char} (h : isUpperAZ c = true) (hd : isUpperAZ d = false) :
    c ≠ d := by
  rintro rfl
  rw [h] at hd
  exact absurd hd (by decide)

lemma ne_of_ts {c d : Char} (h : tsChar c = true) (hd : tsChar d = false) :
    c ≠ d := by
  rintro rfl
  rw [h] at hd
  exact absurd hd (by decide)

/-! ## Airport scanner equations -/

lemma iataScan_nil (m : AirportMap) (rn rc : Airport → List Char) :
    iataScan m rn rc [] = [] := by
  rw [iataScan.eq_def]

lemma iataScan_cons_other (m : AirportMap) (rn rc : Airport → List Char)
    {c : Char} (rest : List Char) (h1 : c ≠ '*') (h2 : c ≠ '#') :
    iataScan m rn rc (c :: rest) = c :: iataScan m rn rc rest := by
  rw [iataScan.eq_def]
  split <;> simp_all

lemma iataScan_hash (m : AirportMap) (rn rc : Airport → List Char)
    {a b c : Char} (rest : List Char)
    (ha : isUpperAZ a) (hb : isUpperAZ b) (hc : isUpperAZ c) :
    iataScan m rn rc ('#' :: a :: b :: c :: rest) =
      (match lookupAirport m [a, b, c] with
       | some ap => rn ap
       | none => ['#', a, b, c]) ++ iataScan m rn rc rest := by
  rw [iataScan.eq_def]
  simp [ha, hb, hc]

lemma iataScan_star (m : AirportMap) (rn rc : Airport → List Char)
    {a b c : Char} (rest : List Char)
    (ha : isUpperAZ a) (hb : isUpperAZ b) (hc : isUpperAZ c) :
    iataScan m rn rc ('*' :: '#' :: a :: b :: c :: rest) =
      (match lookupAirport m [a, b, c] with
       | some ap => rc ap
       | none => ['*', '#', a, b, c]) ++ iataScan m rn rc rest := by
  rw [iataScan.eq_def]
  simp [ha, hb, hc]

lemma iataScan_hash_notup (m : AirportMap) (rn rc : Airport → List Char)
    {a b c : Char} (rest : List Char)
    (h : (isUpperAZ a && isUpperAZ b && isUpperAZ c) = false) :
    iataScan m rn rc ('#' :: a :: b :: c :: rest) =
      '#' :: iataScan m rn rc (a :: b :: c :: rest) := by
  rw [iataScan.eq_def]
  simp [h]

lemma iataScan_star_notup (m : AirportMap) (rn rc : Airport → List Char)
    {a b c : Char} (rest : List Char)
    (h : (isUpperAZ a && isUpperAZ b && isUpperAZ c) = false) :
    iataScan m rn rc ('*' :: '#' :: a :: b :: c :: rest) =
      '*' :: iataScan m rn rc ('#' :: a :: b :: c :: rest) := by
  rw [iataScan.eq_def]
  simp [h]

lemma iataScan_id_of_no_hash (m : AirportMap) (rn rc : Airport → List Char) :
    ∀ l : List Char, '#' ∉ l → iataScan m rn rc l = l := by
  intro l
  induction l with
  | nil => intro _; exact iataScan_nil m rn rc
  | cons c rest ih =>
    intro h
    rw [iataScan.eq_def]
    split <;> simp_all

lemma icaoScan_nil (m : AirportMap) (rn rc : Airport → List Char) :
    icaoScan m rn rc [] = [] := by
  rw [icaoScan.eq_def]

lemma icaoScan_cons_other (m : AirportMap) (rn rc : Airport → List Char)
    {c : Char} (rest : List Char) (h1 : c ≠ '*') (h2 : c ≠ '#') :
    icaoScan m rn rc (c :: rest) = c :: icaoScan m rn rc rest := by
  rw [icaoScan.eq_def]
  split <;> simp_all

lemma icaoScan_hash2 (m : AirportMap) (rn rc : Airport → List Char)
    {a b c d : Char} (rest : List Char)
    (ha : isUpperAZ a) (hb : isUpperAZ b) (hc : isUpperAZ c) (hd : isUpperAZ d) :
    icaoScan m rn rc ('#' :: '#' :: a :: b :: c :: d :: rest) =
      (match lookupAirport m [a, b, c, d] with
       | some ap => rn ap
       | none => ['#', '#', a, b, c, d]) ++ icaoScan m rn rc rest := by
  rw [icaoScan.eq_def]
  simp [ha, hb, hc, hd]

lemma icaoScan_star_hash2 (m : AirportMap) (rn rc : Airport → List Char)
    {a b c d : Char} (rest : List Char)
    (ha : isUpperAZ a) (hb : isUpperAZ b) (hc : isUpperAZ c) (hd : isUpperAZ d) :
    icaoScan m rn rc ('*' :: '#' :: '#' :: a :: b :: c :: d :: rest) =
      (match lookupAirport m [a, b, c, d] with
       | some ap => rc ap
       | none => ['*', '#', '#', a, b, c, d]) ++ icaoScan m rn rc rest := by
  rw [icaoScan.eq_def]
  simp [ha, hb, hc, hd]

lemma icaoScan_id_of_no_hash (m : AirportMap) (rn rc : Airport → List Char) :
    ∀ l : List Char, '#' ∉ l → icaoScan m rn rc l = l := by
  intro l
  induction l with
  | nil => intro _; exact icaoScan_nil m rn rc
  | cons c rest ih =>
    intro h
    rw [icaoScan.eq_def]
    split <;> simp_all

/-! ## Date/time scanner equations -/

lemma dateScan_none_open (r : GoTime → List Char) (rest : List Char) :
    dateScan r none ('D' :: '(' :: rest) = dateScan r (some []) rest := rfl

lemma dateScan_some_nil (r : GoTime → List Char) (acc : List Char) :
    dateScan r (some acc) [] = 'D' :: '(' :: acc.reverse := rfl

lemma dateScan_some_ts (r : GoTime → List Char) {c : Char} (acc rest : List Char)
    (h : tsChar c) :
    dateScan r (some acc) (c :: rest) = dateScan r (some (c :: acc)) rest := by
  rw [dateScan.eq_def]
  have h1 : c ≠ 'D' := ne_of_ts h (by decide)
  have h2 : c ≠ '(' := ne_of_ts h (by decide)
  split <;> simp_all

lemma dateScan_some_close (r : GoTime → List Char) (acc rest : List Char) :
    dateScan r (some acc) (')' :: rest) =
      if 16 ≤ acc.length then
        (match parseGoTime acc.reverse with
         | some t => r t
         | none => 'D' :: '(' :: acc.reverse ++ [')']) ++ dateScan r none rest
      else 'D' :: '(' :: acc.reverse ++ ')' :: dateScan r none rest := by
  rw [dateScan.eq_def]
  simp [tsChar]

lemma dateScan_some_run (r : GoTime → List Char) :
    ∀ (run acc rest : List Char), (∀ c ∈ run, tsChar c) →
      dateScan r (some acc) (run ++ ')' :: rest) =
        if 16 ≤ acc.length + run.length then
          (match parseGoTime (acc.reverse ++ run) with
           | some t => r t
           | none => 'D' :: '(' :: (acc.reverse ++ run) ++ [')']) ++ dateScan r none rest
        else 'D' :: '(' :: (acc.reverse ++ run) ++ ')' :: dateScan r none rest := by
  intro run
  induction run with
  | nil =>
    intro acc rest _
    simpa using dateScan_some_close r acc rest
  | cons c run ih =>
    intro acc rest h
    rw [List.cons_append, dateScan_some_ts r acc _ (h c (List.mem_cons_self c run)),
      ih (c :: acc) rest (fun d hd => h d (List.mem_cons_of_mem c hd))]
    have hlen : (c :: acc).length + run.length = acc.length + (c :: run).length := by
      simp; omega
    have hrev : (c :: acc).reverse ++ run = acc.reverse ++ c :: run := by
      simp
    rw [hlen, hrev]

lemma dateScan_token (r : GoTime → List Char) (run rest : List Char)
    (h : ∀ c ∈ run, tsChar c) (h16 : 16 ≤ run.length) :
    dateScan r none ('D' :: '(' :: (run ++ ')' :: rest)) =
      (match parseGoTime run with
       | some t => r t
       | none => 'D' :: '(' :: run ++ [')']) ++ dateScan r none rest := by
  rw [dateScan_none_open, dateScan_some_run r run [] rest h]
  simp [h16]

lemma dateScan_id_of_no_D (r : GoTime → List Char) :
    ∀ l : List Char, 'D' ∉ l → dateScan r none l = l := by
  intro l
  induction l with
  | nil => rw [dateScan.eq_def]; intro _; rfl
  | cons c rest ih =>
    intro h
    rw [dateScan.eq_def]
    split <;> simp_all

lemma t12Scan_none_open (r : GoTime → List Char) (rest : List Char) :
    t12Scan r none ('T' :: '1' :: '2' :: '(' :: rest) = t12Scan r (some []) rest := rfl

lemma t12Scan_some_nil (r : GoTime → List Char) (acc : List Char) :
    t12Scan r (some acc) [] = 'T' :: '1' :: '2' :: '(' :: acc.reverse := rfl

lemma t12Scan_some_ts (r : GoTime → List Char) {c : Char} (acc rest : List Char)
    (h : tsChar c) :
    t12Scan r (some acc) (c :: rest) = t12Scan r (some (c :: acc)) rest := by
  rw [t12Scan.eq_def]
  have h2 : c ≠ '(' := ne_of_ts h (by decide)
  split <;> simp_all

lemma t12Scan_some_close (r : GoTime → List Char) (acc rest : List Char) :
    t12Scan r (some acc) (')' :: rest) =
      if 16 ≤ acc.length then
        (match parseGoTime acc.reverse with
         | some t => r t
         | none => 'T' :: '1' :: '2' :: '(' :: acc.reverse ++ [')']) ++ t12Scan r none rest
      else 'T' :: '1' :: '2' :: '(' :: acc.reverse ++ ')' :: t12Scan r none rest := by
  rw [t12Scan.eq_def]
  simp [tsChar]

lemma t12Scan_some_run (r : GoTime → List Char) :
    ∀ (run acc rest : List Char), (∀ c ∈ run, tsChar c) →
      t12Scan r (some acc) (run ++ ')' :: rest) =
        if 16 ≤ acc.length + run.length then
          (match parseGoTime (acc.reverse ++ run) with
           | some t => r t
           | none => 'T' :: '1' :: '2' :: '(' :: (acc.reverse ++ run) ++ [')']) ++ t12Scan r none rest
        else 'T' :: '1' :: '2' :: '(' :: (acc.reverse ++ run) ++ ')' :: t12Scan r none rest := by
  intro run
  induction run with
  | nil =>
    intro acc rest _
    simpa using t12Scan_some_close r acc rest
  | cons c run ih =>
    intro acc rest h
    rw [List.cons_append, t12Scan_some_ts r acc _ (h c (List.mem_cons_self c run)),
      ih (c :: acc) rest (fun d hd => h d (List.mem_cons_of_mem c hd))]
    have hlen : (c :: acc).length + run.length = acc.length + (c :: run).length := by
      simp; omega
    have hrev : (c :: acc).reverse ++ run = acc.reverse ++ c :: run := by
      simp
    rw [hlen, hrev]

lemma t12Scan_token (r : GoTime → List Char) (run rest : List Char)
    (h : ∀ c ∈ run, tsChar c) (h16 : 16 ≤ run.length) :
    t12Scan r none ('T' :: '1' :: '2' :: '(' :: (run ++ ')' :: rest)) =
      (match parseGoTime run with
       | some t => r t
       | none => 'T' :: '1' :: '2' :: '(' :: run ++ [')']) ++ t12Scan r none rest := by
  rw [t12Scan_none_open, t12Scan_some_run r run [] rest h]
  simp [h16]

lemma t12Scan_none_cons_notT (r : GoTime → List Char) {c : Char} (rest : List Char)
    (h : c ≠ 'T') :
    t12Scan r none (c :: rest) = c :: t12Scan r none rest := by
  rw [t12Scan.eq_def]
  split <;> simp_all

lemma t12Scan_none_T_nomatch (r : GoTime → List Char) (rest : List Char)
    (h : ∀ w : List Char, rest ≠ '1' :: '2' :: '(' :: w) :
    t12Scan r none ('T' :: rest) = 'T' :: t12Scan r none rest := by
  rcases rest with _ | ⟨a, rest⟩
  · rfl
  by_cases ha : a = '1'
  · subst ha
    rcases rest with _ | ⟨b, rest⟩
    · rfl
    by_cases hb : b = '2'
    · subst hb
      rcases rest with _ | ⟨c, rest⟩
      · rfl
      by_cases hc : c = '('
      · subst hc
        exact absurd rfl (h rest)
      · rw [t12Scan.eq_def]
        split <;> simp_all <;> tauto
    · rw [t12Scan.eq_def]
      split <;> simp_all <;> tauto
  · rw [t12Scan.eq_def]
    split <;> simp_all <;> tauto

lemma t24Scan_none_open (r : GoTime → List Char) (rest : List Char) :
    t24Scan r none ('T' :: '2' :: '4' :: '(' :: rest) = t24Scan r (some []) rest := rfl

lemma t24Scan_some_nil (r : GoTime → List Char) (acc : List Char) :
    t24Scan r (some acc) [] = 'T' :: '2' :: '4' :: '(' :: acc.reverse := rfl

lemma t24Scan_some_ts (r : GoTime → List Char) {c : Char} (acc rest : List Char)
    (h : tsChar c) :
    t24Scan r (some acc) (c :: rest) = t24Scan r (some (c :: acc)) rest := by
  rw [t24Scan.eq_def]
  have h2 : c ≠ '(' := ne_of_ts h (by decide)
  split <;> simp_all

lemma t24Scan_some_close (r : GoTime → List Char) (acc rest : List Char) :
    t24Scan r (some acc) (')' :: rest) =
      if 16 ≤ acc.length then
        (match parseGoTime acc.reverse with
         | some t => r t
         | none => 'T' :: '2' :: '4' :: '(' :: acc.reverse ++ [')']) ++ t24Scan r none rest
      else 'T' :: '2' :: '4' :: '(' :: acc.reverse ++ ')' :: t24Scan r none rest := by
  rw [t24Scan.eq_def]
  simp [tsChar]

lemma t24Scan_some_run (r : GoTime → List Char) :
    ∀ (run acc rest : List Char), (∀ c ∈ run, tsChar c) →
      t24Scan r (some acc) (run ++ ')' :: rest) =
        if 16 ≤ acc.length + run.length then
          (match parseGoTime (acc.reverse ++ run) with
           | some t => r t
           | none => 'T' :: '2' :: '4' :: '(' :: (acc.reverse ++ run) ++ [')']) ++ t24Scan r none rest
        else 'T' :: '2' :: '4' :: '(' :: (acc.reverse ++ run) ++ ')' :: t24Scan r none rest := by
  intro run
  induction run with
  | nil =>
    intro acc rest _
    simpa using t24Scan_some_close r acc rest
  | cons c run ih =>
    intro acc rest h
    rw [List.cons_append, t24Scan_some_ts r acc _ (h c (List.mem_cons_self c run)),
      ih (c :: acc) rest (fun d hd => h d (List.mem_cons_of_mem c hd))]
    have hlen : (c :: acc).length + run.length = acc.length + (c :: run).length := by
      simp; omega
    have hrev : (c :: acc).reverse ++ run = acc.reverse ++ c :: run := by
      simp
    rw [hlen, hrev]

lemma t24Scan_token (r : GoTime → List Char) (run rest : List Char)
    (h : ∀ c ∈ run, tsChar c) (h16 : 16 ≤ run.length) :
    t24Scan r none ('T' :: '2' :: '4' :: '(' :: (run ++ ')' :: rest)) =
      (match parseGoTime run with
       | some t => r t
       | none => 'T' :: '2' :: '4' :: '(' :: run ++ [')']) ++ t24Scan r none rest := by
  rw [t24Scan_none_open, t24Scan_some_run r run [] rest h]
  simp [h16]

lemma t24Scan_none_cons_notT (r : GoTime → List Char) {c : Char} (rest : List Char)
    (h : c ≠ 'T') :
    t24Scan r none (c :: rest) = c :: t24Scan r none rest := by
  rw [t24Scan.eq_def]
  split <;> simp_all

lemma t24Scan_none_T_nomatch (r : GoTime → List Char) (rest : List Char)
    (h : ∀ w : List Char, rest ≠ '2' :: '4' :: '(' :: w) :
    t24Scan r none ('T' :: rest) = 'T' :: t24Scan r none rest := by
  rcases rest with _ | ⟨a, rest⟩
  · rfl
  by_cases ha : a = '2'
  · subst ha
    rcases rest with _ | ⟨b, rest⟩
    · rfl
    by_cases hb : b = '4'
    · subst hb
      rcases rest with _ | ⟨c, rest⟩
      · rfl
      by_cases hc : c = '('
      · subst hc
        exact absurd rfl (h rest)
      · rw [t24Scan.eq_def]
        split <;> simp_all <;> tauto
    · rw [t24Scan.eq_def]
      split <;> simp_all <;> tauto
  · rw [t24Scan.eq_def]
    split <;> simp_all <;> tauto

lemma t12Scan_id_of_no_open (r : GoTime → List Char) :
    ∀ l : List Char, '(' ∉ l → t12Scan r none l = l := by
  intro l
  induction l with
  | nil => rw [t12Scan.eq_def]; intro _; rfl
  | cons c rest ih =>
    intro h
    rw [t12Scan.eq_def]
    split <;> simp_all

lemma t24Scan_id_of_no_open (r : GoTime → List Char) :
    ∀ l : List Char, '(' ∉ l → t24Scan r none l = l := by
  intro l
  induction l with
  | nil => rw [t24Scan.eq_def]; intro _; rfl
  | cons c rest ih =>
    intro h
    rw [t24Scan.eq_def]
    split <;> simp_all

lemma t24Scan_id_of_no_T (r : GoTime → List Char) :
    ∀ l : List Char, 'T' ∉ l → t24Scan r none l = l := by
  intro l
  induction l with
  | nil => rw [t24Scan.eq_def]; intro _; rfl
  | cons c rest ih =>
    intro h
    rw [t24Scan.eq_def]
    split <;> simp_all

lemma t12Scan_id_of_no_T (r : GoTime → List Char) :
    ∀ l : List Char, 'T' ∉ l → t12Scan r none l = l := by
  intro l
  induction l with
  | nil => rw [t12Scan.eq_def]; intro _; rfl
  | cons c rest ih =>
    intro h
    rw [t12Scan.eq_def]
    split <;> simp_all

/-- Crossing a pure `[0-9T:.Z+-]` segment that is closed by `)` cannot
start a `T12(` match (the class contains no `(`). -/
lemma t12Scan_none_ts_close (r : GoTime → List Char) :
    ∀ (l rest : List Char), (∀ c ∈ l, tsChar c) →
      t12Scan r none (l ++ ')' :: rest) = l ++ ')' :: t12Scan r none rest := by
  intro l
  induction l with
  | nil =>
    intro rest _
    exact t12Scan_none_cons_notT r rest (by decide)
  | cons c l ih =>
    intro rest h
    have hc := h c (List.mem_cons_self c l)
    by_cases hT : c = 'T'
    · subst hT
      rw [List.cons_append, t12Scan_none_T_nomatch r _ ?_, ih rest
        (fun d hd => h d (List.mem_cons_of_mem _ hd))]
      · simp
      intro w hw
      rcases l with _ | ⟨a, l⟩
      · simp at hw
      rcases l with _ | ⟨b, l⟩
      · simp at hw
      rcases l with _ | ⟨e, l⟩
      · simp at hw
      · simp at hw
        obtain ⟨h1, h2, h3, h4⟩ := hw
        have := h e (by simp)
        subst h3
        exact absurd this (by decide)
    · rw [List.cons_append, t12Scan_none_cons_notT r _ hT, ih rest
        (fun d hd => h d (List.mem_cons_of_mem _ hd))]
      simp

/-- A timestamp accepted by the UTC layout carries offset zero. -/
lemma parseZ_offMin {ts : List Char} {t : GoTime} (h : parseZ ts = some t) :
    t.offMin = 0 := by
  simp only [parseZ, Option.bind_eq_some] at h
  obtain ⟨⟨y, mo, d, hh, mi, r⟩, _, hmatch⟩ := h
  split at hmatch
  · split at hmatch
    · cases hmatch
      rfl
    · cases hmatch
  · cases hmatch

/-- Analogue of `t12Scan_none_ts_close` for the `T24` pass. -/
lemma t24Scan_none_ts_close (r : GoTime → List Char) :
    ∀ (l rest : List Char), (∀ c ∈ l, tsChar c) →
      t24Scan r none (l ++ ')' :: rest) = l ++ ')' :: t24Scan r none rest := by
  intro l
  induction l with
  | nil =>
    intro rest _
    exact t24Scan_none_cons_notT r rest (by decide)
  | cons c l ih =>
    intro rest h
    by_cases hT : c = 'T'
    · subst hT
      rw [List.cons_append, t24Scan_none_T_nomatch r _ ?_, ih rest
        (fun d hd => h d (List.mem_cons_of_mem _ hd))]
      · simp
      intro w hw
      rcases l with _ | ⟨a, l⟩
      · simp at hw
      rcases l with _ | ⟨b, l⟩
      · simp at hw
      rcases l with _ | ⟨e, l⟩
      · simp at hw
      · simp at hw
        obtain ⟨h1, h2, h3, h4⟩ := hw
        have := h e (by simp)
        subst h3
        exact absurd this (by decide)
    · rw [List.cons_append, t24Scan_none_cons_notT r _ hT, ih rest
        (fun d hd => h d (List.mem_cons_of_mem _ hd))]
      simp


/-! ## Loader lemmas -/

lemma foldl_prepend_eq {α β : Type} (g : α → β) :
    ∀ (l : List α) (init : List β),
      l.foldl (fun acc x => g x :: acc) init = (l.map g).reverse ++ init := by
  intro l
  induction l with
  | nil => intro init; simp
  | cons x l ih => intro init; simp [ih]

lemma mem_columnMapOf {header : List (List Char)} {e : List Char × Nat} :
    e ∈ columnMapOf header ↔
      ∃ p ∈ header.enum, e = (trimSpace (p.2.map asciiLower), p.1) := by
  rw [columnMapOf, foldl_prepend_eq]
  simp [eq_comm]

lemma colIdx?_columnMapOf_eq_none {header : List (List Char)} {key : List Char} :
    colIdx? (columnMapOf header) key = none ↔
      ∀ cell ∈ header, trimSpace (cell.map asciiLower) ≠ key := by
  rw [colIdx?]
  rw [Option.map_eq_none']
  rw [List.find?_eq_none]
  constructor
  · intro h cell hcell
    have hsnd : cell ∈ header.enum.map Prod.snd := by
      rw [List.enum_map_snd]
      exact hcell
    obtain ⟨p, hp, hpe⟩ := List.mem_map.mp hsnd
    have := h _ (mem_columnMapOf.mpr ⟨p, hp, rfl⟩)
    simpa [hpe] using this
  · intro h e he
    obtain ⟨p, hp, rfl⟩ := mem_columnMapOf.mp he
    have hmem : p.2 ∈ header := by
      have : p.2 ∈ header.enum.map Prod.snd := List.mem_map.mpr ⟨p, hp, rfl⟩
      rwa [List.enum_map_snd] at this
    simpa using h p.2 hmem

lemma missingColumn?_eq_none_iff {header : List (List Char)} :
    missingColumn? (columnMapOf header) = none ↔ specMissingColumn header = false := by
  rw [missingColumn?, List.find?_eq_none]
  constructor
  · intro h
    rw [specMissingColumn, List.any_eq_false]
    intro req hreq
    have h2 : colIdx? (columnMapOf header) req ≠ none :=
      fun hn => h req hreq (by simp [hn])
    rw [Ne, colIdx?_columnMapOf_eq_none] at h2
    push_neg at h2
    obtain ⟨cell, hcell, heq⟩ := h2
    simp only [Bool.not_eq_true, List.all_eq_false]
    exact ⟨cell, hcell, by simp [heq]⟩
  · intro h req hreq hNone
    rw [specMissingColumn, List.any_eq_false] at h
    have h3 := h req hreq
    rw [Bool.not_eq_true, List.all_eq_false] at h3
    obtain ⟨cell, hcell, hc⟩ := h3
    have h4 : trimSpace (cell.map asciiLower) = req := by
      simpa using hc
    have h5 : colIdx? (columnMapOf header) req = none := by
      simpa using hNone
    rw [colIdx?_columnMapOf_eq_none] at h5
    exact h5 cell hcell h4

lemma processRow_not_schema {cm : List (List Char × Nat)} {hlen : Nat}
    {m : AirportMap} {r : List (List Char)} {e : LoadErr}
    (h : processRow cm hlen m r = .error e) : e.isSchema = false := by
  unfold processRow at h
  split at h
  · simp at h
  split at h
  · injection h with h
    subst h
    rfl
  dsimp only at h
  split at h
  · injection h with h
    subst h
    rfl
  split at h
  · injection h with h
    subst h
    rfl
  · simp at h


lemma fieldAt_nil {cm : List (List Char × Nat)} {key : List Char} :
    fieldAt cm [] key = [] := by
  unfold fieldAt
  cases colIdx? cm key <;> simp

lemma list_isEmpty_false {α : Type} {l : List α} (h : l ≠ []) : l.isEmpty = false := by
  cases l
  · exact absurd rfl h
  · rfl

lemma processRow_ok_iff {header : List (List Char)} {m : AirportMap}
    {r : List (List Char)} :
    (∃ m', processRow (columnMapOf header) header.length m r = .ok m') ↔
      specBadRow header r = false := by
  unfold processRow specBadRow
  by_cases h0 : r.length = 0
  · have hr : r = [] := List.length_eq_zero.mp h0
    subst hr
    simp
  · have hne : r.isEmpty = false := list_isEmpty_false (by
      intro hr
      subst hr
      exact h0 rfl)
    rw [if_neg h0]
    by_cases h1 : r.length = header.length
    · rw [if_neg (by omega : ¬r.length ≠ header.length)]
      dsimp only
      by_cases h2 : trimSpace (fieldAt (columnMapOf header) r "name".data) = []
      · rw [if_pos h2]
        constructor
        · intro ⟨m', hm'⟩
          cases hm'
        · intro hbad
          exfalso
          rw [hne, h2] at hbad
          simp [h1] at hbad
      · rw [if_neg h2]
        by_cases h3 : trimSpace (fieldAt (columnMapOf header) r "iata_code".data) = [] ∧
            trimSpace (fieldAt (columnMapOf header) r "icao_code".data) = []
        · rw [if_pos h3]
          constructor
          · intro ⟨m', hm'⟩
            cases hm'
          · intro hbad
            exfalso
            rw [hne, h3.1, h3.2] at hbad
            simp [h1] at hbad
        · rw [if_neg h3]
          constructor
          · intro _
            rw [hne, list_isEmpty_false h2]
            have hW : ((trimSpace (fieldAt (columnMapOf header) r "iata_code".data)).isEmpty &&
                (trimSpace (fieldAt (columnMapOf header) r "icao_code".data)).isEmpty) = false := by
              by_cases ha : trimSpace (fieldAt (columnMapOf header) r "iata_code".data) = []
              · have hb : trimSpace (fieldAt (columnMapOf header) r "icao_code".data) ≠ [] :=
                  fun hb => h3 ⟨ha, hb⟩
                rw [list_isEmpty_false hb, Bool.and_false]
              · rw [list_isEmpty_false ha, Bool.false_and]
            rw [hW]
            simp [h1]
          · intro _
            exact ⟨_, rfl⟩
    · rw [if_pos (by omega : r.length ≠ header.length)]
      constructor
      · intro ⟨m', hm'⟩
        cases hm'
      · intro hbad
        exfalso
        rw [hne, beq_eq_false_iff_ne.mpr h1] at hbad
        simp at hbad

lemma loadRows_ok_iff {header : List (List Char)} :
    ∀ (rows : List (List (List Char))) (m : AirportMap),
      (loadRows (columnMapOf header) header.length m rows).1 = .ok () ↔
        ∀ r ∈ rows, specBadRow header r = false := by
  intro rows
  induction rows with
  | nil =>
    intro m
    simp [loadRows]
  | cons r rs ih =>
    intro m
    cases hpr : processRow (columnMapOf header) header.length m r with
    | ok m' =>
      rw [loadRows, hpr]
      rw [ih m']
      constructor
      · intro hall r' hr'
        rcases List.mem_cons.mp hr' with rfl | hmem
        · exact processRow_ok_iff.mp ⟨m', hpr⟩
        · exact hall r' hmem
      · intro hall r' hr'
        exact hall r' (List.mem_cons_of_mem _ hr')
    | error e =>
      rw [loadRows, hpr]
      constructor
      · intro h
        cases h
      · intro hall
        obtain ⟨m', hm'⟩ := processRow_ok_iff.mpr (hall r (List.mem_cons_self r rs))
        rw [hpr] at hm'
        cases hm'

lemma loadRows_error_split {cm : List (List Char × Nat)} {hlen : Nat} :
    ∀ (rows : List (List (List Char))) (m : AirportMap) (e : LoadErr),
      (loadRows cm hlen m rows).1 = .error e →
      ∃ pre r post m1, rows = pre ++ r :: post ∧
        foldRowsOk cm hlen m pre = some m1 ∧
        processRow cm hlen m1 r = .error e ∧
        (loadRows cm hlen m rows).2 = m1 := by
  intro rows
  induction rows with
  | nil =>
    intro m e h
    simp [loadRows] at h
  | cons r rs ih =>
    intro m e h
    cases hpr : processRow cm hlen m r with
    | ok m' =>
      rw [loadRows, hpr] at h
      obtain ⟨pre, rr, post, m1, hsplit, hfold, herr, hstate⟩ := ih m' e h
      refine ⟨r :: pre, rr, post, m1, by simp [hsplit], ?_, herr, ?_⟩
      · rw [foldRowsOk, hpr]
        exact hfold
      · rw [loadRows, hpr]
        exact hstate
    | error e' =>
      rw [loadRows, hpr] at h
      injection h with h
      subst h
      exact ⟨[], r, rs, m, rfl, rfl, hpr, by rw [loadRows, hpr]⟩

lemma loadRows_error_kind {cm : List (List Char × Nat)} {hlen : Nat}
    {rows : List (List (List Char))} {m : AirportMap} {e : LoadErr}
    (h : (loadRows cm hlen m rows).1 = .error e) : e.isSchema = false := by
  obtain ⟨_, _, _, _, _, _, herr, _⟩ := loadRows_error_split rows m e h
  exact processRow_not_schema herr

lemma loadRows_ok_fold {cm : List (List Char × Nat)} {hlen : Nat} :
    ∀ (rows : List (List (List Char))) (m : AirportMap),
      (loadRows cm hlen m rows).1 = .ok () →
      foldRowsOk cm hlen m rows = some ((loadRows cm hlen m rows).2) := by
  intro rows
  induction rows with
  | nil =>
    intro m _
    rfl
  | cons r rs ih =>
    intro m h
    cases hpr : processRow cm hlen m r with
    | ok m' =>
      rw [loadRows, hpr] at h ⊢
      rw [foldRowsOk, hpr]
      exact ih m' h
    | error e' =>
      rw [loadRows, hpr] at h
      cases h

lemma loadRows_append_of_fold {cm : List (List Char × Nat)} {hlen : Nat} :
    ∀ (xs ys : List (List (List Char))) (m m1 : AirportMap),
      foldRowsOk cm hlen m xs = some m1 →
      loadRows cm hlen m (xs ++ ys) = loadRows cm hlen m1 ys := by
  intro xs
  induction xs with
  | nil =>
    intro ys m m1 h
    injection h with h
    subst h
    rfl
  | cons r rs ih =>
    intro ys m m1 h
    rw [foldRowsOk] at h
    cases hpr : processRow cm hlen m r with
    | ok m' =>
      rw [hpr] at h
      rw [List.cons_append, loadRows, hpr]
      exact ih ys m' m1 h
    | error e' =>
      rw [hpr] at h
      cases h

lemma lookupAirport_cons_ne {k k' : List Char} {ap : Airport} {m : AirportMap}
    (h : k ≠ k') :
    lookupAirport ((k', ap) :: m) k = lookupAirport m k := by
  unfold lookupAirport
  rw [List.find?_cons_of_neg]
  simp [Ne.symm h]

lemma lookupAirport_cons_self {k : List Char} {ap : Airport} {m : AirportMap} :
    lookupAirport ((k, ap) :: m) k = some ap := by
  unfold lookupAirport
  rw [List.find?_cons_of_pos] <;> simp

lemma processRow_ok_insert {cm : List (List Char × Nat)} {hlen : Nat}
    {m m' : AirportMap} {r : List (List Char)}
    (h : processRow cm hlen m r = .ok m')
    (hia : fieldAt cm r "iata_code".data ≠ [])
    (hic : fieldAt cm r "icao_code".data ≠ []) :
    ∃ ap : Airport,
      m' = (fieldAt cm r "icao_code".data, ap) ::
        (fieldAt cm r "iata_code".data, ap) :: m := by
  unfold processRow at h
  split at h
  · exfalso
    apply hia
    have hr : r = [] := List.length_eq_zero.mp (by assumption)
    subst hr
    exact fieldAt_nil
  split at h
  · cases h
  dsimp only at h
  split at h
  · cases h
  split at h
  · cases h
  injection h with h
  subst h
  refine ⟨⟨fieldAt cm r "name".data, fieldAt cm r "iso_country".data,
    fieldAt cm r "municipality".data, fieldAt cm r "icao_code".data,
    fieldAt cm r "iata_code".data, fieldAt cm r "coordinates".data⟩, ?_⟩
  rfl

lemma processRow_ok_lookup_preserve {cm : List (List Char × Nat)} {hlen : Nat}
    {m m' : AirportMap} {r' : List (List Char)} {k : List Char}
    (h : processRow cm hlen m r' = .ok m')
    (h1 : k ≠ fieldAt cm r' "iata_code".data)
    (h2 : k ≠ fieldAt cm r' "icao_code".data) :
    lookupAirport m' k = lookupAirport m k := by
  unfold processRow at h
  split at h
  · injection h with h
    subst h
    rfl
  split at h
  · cases h
  dsimp only at h
  split at h
  · cases h
  split at h
  · cases h
  injection h with h
  subst h
  by_cases hca : fieldAt cm r' "icao_code".data = [] <;>
    by_cases hta : fieldAt cm r' "iata_code".data = [] <;>
      simp [hca, hta, lookupAirport_cons_ne h1, lookupAirport_cons_ne h2]

lemma loadRows_ok_lookup_preserve {cm : List (List Char × Nat)} {hlen : Nat}
    {k : List Char} :
    ∀ (post : List (List (List Char))) (m : AirportMap),
      (loadRows cm hlen m post).1 = .ok () →
      (∀ r' ∈ post, k ≠ fieldAt cm r' "iata_code".data ∧
        k ≠ fieldAt cm r' "icao_code".data) →
      lookupAirport (loadRows cm hlen m post).2 k = lookupAirport m k := by
  intro post
  induction post with
  | nil =>
    intro m _ _
    rfl
  | cons r rs ih =>
    intro m h hk
    cases hpr : processRow cm hlen m r with
    | ok m' =>
      rw [loadRows, hpr] at h ⊢
      rw [ih m' h (fun r' hr' => hk r' (List.mem_cons_of_mem _ hr'))]
      exact processRow_ok_lookup_preserve hpr
        (hk r (List.mem_cons_self r rs)).1 (hk r (List.mem_cons_self r rs)).2
    | error e' =>
      rw [loadRows, hpr] at h
      cases h


/-! ## Whitespace lemmas: escape replacement -/

lemma escToNl_nil : escToNl [] = [] := rfl

lemma escToNl_cons_other {c : Char} (rest : List Char) (h : c ≠ '\\') :
    escToNl (c :: rest) = c :: escToNl rest := by
  rw [escToNl.eq_def]
  split <;> simp_all

lemma escToNl_esc {c : Char} (rest : List Char) (h : isRVF c) :
    escToNl ('\\' :: c :: rest) = '\n' :: escToNl rest := by
  rw [escToNl.eq_def]
  simp [h]

lemma escToNl_esc_not {c : Char} (rest : List Char) (h : isRVF c = false) :
    escToNl ('\\' :: c :: rest) = '\\' :: escToNl (c :: rest) := by
  rw [escToNl.eq_def]
  simp [h]

lemma hasEsc_cons_other {c : Char} (l : List Char) (h : c ≠ '\\') :
    hasEsc (c :: l) = hasEsc l := by
  rw [hasEsc.eq_def]
  split <;> simp_all

lemma hasEsc_cons_false {c : Char} {l : List Char} (h : hasEsc (c :: l) = false) :
    hasEsc l = false := by
  rcases l with _ | ⟨d, l⟩
  · rfl
  · by_cases hc : c = '\\'
    · subst hc
      rw [hasEsc.eq_def] at h
      simp at h
      exact h.2
    · rwa [hasEsc_cons_other _ hc] at h

lemma hasEsc_esc_pair {c : Char} {l : List Char} (h : hasEsc ('\\' :: c :: l) = false) :
    isRVF c = false := by
  rw [hasEsc.eq_def] at h
  simp at h
  exact h.1

lemma escToNl_id : ∀ l : List Char, hasEsc l = false → escToNl l = l := by
  intro l
  induction l with
  | nil => intro _; rfl
  | cons a l ih =>
    intro h
    by_cases ha : a = '\\'
    · subst ha
      rcases l with _ | ⟨c, l⟩
      · rfl
      · rw [escToNl_esc_not _ (hasEsc_esc_pair h), ih (hasEsc_cons_false h)]
    · rw [escToNl_cons_other _ ha, ih (hasEsc_cons_false h)]

lemma escToNl_replace :
    ∀ (u v : List Char) (c : Char), hasEsc u = false → isRVF c →
      escToNl (u ++ '\\' :: c :: v) = u ++ '\n' :: escToNl v := by
  intro u
  induction u with
  | nil =>
    intro v c _ hc
    rw [List.nil_append, escToNl_esc _ hc]
    rfl
  | cons a u ih =>
    intro v c h hc
    have ihe := ih v c (hasEsc_cons_false h) hc
    by_cases ha : a = '\\'
    · subst ha
      rcases u with _ | ⟨d, u⟩
      · rw [List.cons_append, List.nil_append, escToNl_esc_not _ (by decide),
          escToNl_esc _ hc]
        rfl
      · simp only [List.cons_append] at ihe ⊢
        rw [escToNl_esc_not _ (hasEsc_esc_pair h), ihe]
    · simp only [List.cons_append] at ihe ⊢
      rw [escToNl_cons_other _ ha, ihe]

/-! ## Whitespace lemmas: control-character runs -/

lemma ctlRunsToNl_nil (b : Bool) : ctlRunsToNl b [] = [] := rfl

lemma ctlRunsToNl_cons_notctl {c : Char} (b : Bool) (rest : List Char)
    (h : isCtlVert c = false) :
    ctlRunsToNl b (c :: rest) = c :: ctlRunsToNl false rest := by
  rw [ctlRunsToNl.eq_def]
  simp [h]

lemma ctlRunsToNl_cons_ctl_false {c : Char} (rest : List Char) (h : isCtlVert c) :
    ctlRunsToNl false (c :: rest) = '\n' :: ctlRunsToNl true rest := by
  rw [ctlRunsToNl.eq_def]
  simp [h]

lemma ctlRunsToNl_cons_ctl_true {c : Char} (rest : List Char) (h : isCtlVert c) :
    ctlRunsToNl true (c :: rest) = ctlRunsToNl true rest := by
  rw [ctlRunsToNl.eq_def]
  simp [h]

lemma ctlRunsToNl_id : ∀ l : List Char, (∀ c ∈ l, isCtlVert c = false) →
    ctlRunsToNl false l = l := by
  intro l
  induction l with
  | nil => intro _; rfl
  | cons c rest ih =>
    intro h
    rw [ctlRunsToNl_cons_notctl false rest (h c (List.mem_cons_self c rest)),
      ih (fun d hd => h d (List.mem_cons_of_mem _ hd))]

lemma ctlRunsToNl_true_reset : ∀ (v : List Char),
    (∀ d, v.head? = some d → isCtlVert d = false) →
    ctlRunsToNl true v = ctlRunsToNl false v := by
  intro v hv
  rcases v with _ | ⟨d, v⟩
  · rfl
  · rw [ctlRunsToNl_cons_notctl true v (hv d rfl),
      ctlRunsToNl_cons_notctl false v (hv d rfl)]

lemma ctlRunsToNl_run_true : ∀ (r : List Char), (∀ d ∈ r, isCtlVert d = true) →
    ∀ v, ctlRunsToNl true (r ++ v) = ctlRunsToNl true v := by
  intro r
  induction r with
  | nil => intro _ v; rfl
  | cons c r ih =>
    intro h v
    rw [List.cons_append, ctlRunsToNl_cons_ctl_true _ (h c (List.mem_cons_self c r)),
      ih (fun d hd => h d (List.mem_cons_of_mem _ hd))]

lemma ctlRunsToNl_replace :
    ∀ (u r v : List Char), (∀ d ∈ u, isCtlVert d = false) → r ≠ [] →
      (∀ d ∈ r, isCtlVert d = true) →
      (∀ d, v.head? = some d → isCtlVert d = false) →
      ctlRunsToNl false (u ++ r ++ v) = u ++ '\n' :: ctlRunsToNl false v := by
  intro u
  induction u with
  | nil =>
    intro r v _ hr hrc hv
    rcases r with _ | ⟨c, r⟩
    · exact absurd rfl hr
    · rw [List.nil_append, List.cons_append,
        ctlRunsToNl_cons_ctl_false _ (hrc c (List.mem_cons_self c r)),
        ctlRunsToNl_run_true r (fun d hd => hrc d (List.mem_cons_of_mem _ hd)) v,
        ctlRunsToNl_true_reset v hv]
      rfl
  | cons a u ih =>
    intro r v hu hr hrc hv
    simp only [List.cons_append]
    rw [ctlRunsToNl_cons_notctl false _ (hu a (List.mem_cons_self a u)),
      ih r v (fun d hd => hu d (List.mem_cons_of_mem _ hd)) hr hrc hv]

/-! ## Whitespace lemmas: newline-run collapse -/

lemma collapseNl_nil (k : Nat) : collapseNl k [] = emitNl k := rfl

lemma collapseNl_newline (k : Nat) (rest : List Char) :
    collapseNl k ('\n' :: rest) = collapseNl (k + 1) rest := by
  rw [collapseNl.eq_def]
  simp

lemma collapseNl_other {c : Char} (k : Nat) (rest : List Char) (h : c ≠ '\n') :
    collapseNl k (c :: rest) = emitNl k ++ c :: collapseNl 0 rest := by
  rw [collapseNl.eq_def]
  simp [h]

lemma collapseNl_run : ∀ (j : Nat) (k : Nat) (m : List Char),
    collapseNl k (List.replicate j '\n' ++ m) = collapseNl (k + j) m := by
  intro j
  induction j with
  | zero => intro k m; rfl
  | succ j ih =>
    intro k m
    rw [List.replicate_succ, List.cons_append, collapseNl_newline, ih]
    congr 1
    omega

lemma collapseNl_copy : ∀ (w : List Char) (m : List Char), (∀ c ∈ w, c ≠ '\n') →
    collapseNl 0 (w ++ m) = w ++ collapseNl 0 m := by
  intro w
  induction w with
  | nil => intro m _; rfl
  | cons c w ih =>
    intro m h
    rw [List.cons_append, collapseNl_other 0 _ (h c (List.mem_cons_self c w)),
      ih m (fun d hd => h d (List.mem_cons_of_mem _ hd))]
    rfl

lemma emitNl_big (n : Nat) (h : 3 ≤ n) : emitNl n = ['\n', '\n'] := by
  rw [emitNl, if_pos h]

lemma emitNl_small (n : Nat) (h : ¬3 ≤ n) : emitNl n = List.replicate n '\n' := by
  rw [emitNl, if_neg h]

lemma emitNl_shift_eq {n : Nat} (h : 3 ≤ n) :
    ∀ j, emitNl (n + j) = emitNl (2 + j) := by
  intro j
  cases j with
  | zero =>
    rw [emitNl_big _ (by omega), emitNl_small 2 (by omega)]
    rfl
  | succ j =>
    rw [emitNl_big _ (by omega), emitNl_big _ (by omega)]

lemma collapseNl_congr_emit : ∀ (v : List Char) (k1 k2 : Nat),
    (∀ j, emitNl (k1 + j) = emitNl (k2 + j)) →
    collapseNl k1 v = collapseNl k2 v := by
  intro v
  induction v with
  | nil =>
    intro k1 k2 h
    have := h 0
    simpa using this
  | cons c v ih =>
    intro k1 k2 h
    by_cases hc : c = '\n'
    · subst hc
      rw [collapseNl_newline, collapseNl_newline]
      exact ih (k1 + 1) (k2 + 1) (fun j => by
        have := h (j + 1)
        rw [show k1 + 1 + j = k1 + (j + 1) by omega, show k2 + 1 + j = k2 + (j + 1) by omega]
        exact this)
    · rw [collapseNl_other _ _ hc, collapseNl_other _ _ hc]
      have := h 0
      simp only [Nat.add_zero] at this
      rw [this]

lemma collapseNl_replace_run :
    ∀ (u : List Char) (v : List Char) (n k : Nat), 3 ≤ n →
      collapseNl k (u ++ List.replicate n '\n' ++ v) =
        collapseNl k (u ++ '\n' :: '\n' :: v) := by
  intro u
  induction u with
  | nil =>
    intro v n k h
    rw [List.nil_append, List.nil_append, collapseNl_run,
      show ('\n' :: '\n' :: v) = List.replicate 2 '\n' ++ v from rfl, collapseNl_run]
    exact collapseNl_congr_emit v (k + n) (k + 2) (fun j => by
      rw [show k + n + j = n + (k + j) by omega, show k + 2 + j = 2 + (k + j) by omega]
      exact emitNl_shift_eq h (k + j))
  | cons a u ih =>
    intro v n k h
    by_cases ha : a = '\n'
    · subst ha
      simp only [List.cons_append]
      rw [collapseNl_newline, collapseNl_newline]
      exact ih v n (k + 1) h
    · simp only [List.cons_append]
      rw [collapseNl_other _ _ ha, collapseNl_other _ _ ha, ih v n 0 h]

/-! ## Whitespace lemmas: fields and line collapse -/

lemma ctlVert_isGoSpace {c : Char} (h : isCtlVert c = true) : isGoSpace c = true := by
  simp only [isCtlVert, Bool.or_eq_true, decide_eq_true_eq] at h
  simp only [isGoSpace, Bool.or_eq_true, Bool.and_eq_true, decide_eq_true_eq]
  omega

lemma fieldsGo_nil (acc : List Char) :
    fieldsGo acc [] = if acc.isEmpty then [] else [acc.reverse] := rfl

lemma fieldsGo_cons (acc : List Char) (c : Char) (rest : List Char) :
    fieldsGo acc (c :: rest) =
      if isGoSpace c then
        if acc.isEmpty then fieldsGo [] rest else acc.reverse :: fieldsGo [] rest
      else fieldsGo (c :: acc) rest := rfl

lemma fieldsGo_words_good : ∀ (l acc : List Char),
    (∀ c ∈ acc, isGoSpace c = false) →
    ∀ w ∈ fieldsGo acc l, w ≠ [] ∧ ∀ c ∈ w, isGoSpace c = false := by
  intro l
  induction l with
  | nil =>
    intro acc hacc w hw
    rw [fieldsGo_nil] at hw
    split at hw
    · cases hw
    · rename_i hne
      rw [List.mem_singleton] at hw
      subst hw
      refine ⟨?_, fun c hc => hacc c (List.mem_reverse.mp hc)⟩
      simp only [ne_eq, List.reverse_eq_nil_iff]
      intro h
      rw [h] at hne
      simp at hne
  | cons a l ih =>
    intro acc hacc w hw
    rw [fieldsGo_cons] at hw
    by_cases hs : isGoSpace a
    · rw [if_pos hs] at hw
      split at hw
      · exact ih [] (fun c hc => absurd hc (List.not_mem_nil c)) w hw
      · rename_i hne
        rcases List.mem_cons.mp hw with hw | hw
        · subst hw
          refine ⟨?_, fun c hc => hacc c (List.mem_reverse.mp hc)⟩
          simp only [ne_eq, List.reverse_eq_nil_iff]
          intro h
          rw [h] at hne
          simp at hne
        · exact ih [] (fun c hc => absurd hc (List.not_mem_nil c)) w hw
    · rw [if_neg hs] at hw
      refine ih (a :: acc) ?_ w hw
      intro c hc
      rcases List.mem_cons.mp hc with hc | hc
      · rw [hc]
        exact Bool.eq_false_iff.mpr hs
      · exact hacc c hc

lemma fieldsGo_word_chars : ∀ (l acc : List Char),
    ∀ w ∈ fieldsGo acc l, ∀ c ∈ w, c ∈ acc ∨ c ∈ l := by
  intro l
  induction l with
  | nil =>
    intro acc w hw c hc
    rw [fieldsGo_nil] at hw
    split at hw
    · cases hw
    · rw [List.mem_singleton] at hw
      subst hw
      exact Or.inl (List.mem_reverse.mp hc)
  | cons a l ih =>
    intro acc w hw c hc
    rw [fieldsGo_cons] at hw
    by_cases hs : isGoSpace a
    · rw [if_pos hs] at hw
      have tail_case : w ∈ fieldsGo [] l → c ∈ acc ∨ c ∈ a :: l := by
        intro hw'
        rcases ih [] w hw' c hc with h | h
        · cases h
        · exact Or.inr (List.mem_cons_of_mem _ h)
      split at hw
      · exact tail_case hw
      · rcases List.mem_cons.mp hw with hw | hw
        · subst hw
          exact Or.inl (List.mem_reverse.mp hc)
        · exact tail_case hw
    · rw [if_neg hs] at hw
      rcases ih (a :: acc) w hw c hc with h | h
      · rcases List.mem_cons.mp h with h | h
        · rw [h]
          exact Or.inr (List.mem_cons_self a l)
        · exact Or.inl h
      · exact Or.inr (List.mem_cons_of_mem _ h)

lemma fieldsGo_append_word : ∀ (w acc m : List Char),
    (∀ c ∈ w, isGoSpace c = false) →
    fieldsGo acc (w ++ m) = fieldsGo (w.reverse ++ acc) m := by
  intro w
  induction w with
  | nil => intro acc m _; rfl
  | cons a w ih =>
    intro acc m h
    rw [List.cons_append, fieldsGo_cons,
      if_neg (Bool.eq_false_iff.mp (h a (List.mem_cons_self a w))),
      ih (a :: acc) m (fun c hc => h c (List.mem_cons_of_mem _ hc))]
    simp

lemma fieldsGo_join : ∀ ws : List (List Char),
    (∀ w ∈ ws, w ≠ [] ∧ ∀ c ∈ w, isGoSpace c = false) →
    fieldsGo [] (joinSep [' '] ws) = ws := by
  intro ws
  induction ws with
  | nil => intro _; rfl
  | cons w ws ih =>
    intro h
    obtain ⟨hne, hw⟩ := h w (List.mem_cons_self w ws)
    have htail := fun w' hw' => h w' (List.mem_cons_of_mem _ hw')
    rcases ws with _ | ⟨w2, ws⟩
    · show fieldsGo [] w = [w]
      have heq : fieldsGo [] (w ++ []) = fieldsGo (w.reverse ++ []) [] :=
        fieldsGo_append_word w [] [] hw
      rw [List.append_nil, List.append_nil] at heq
      rw [heq, fieldsGo_nil, list_isEmpty_false (by simpa using hne)]
      simp
    · show fieldsGo [] (w ++ [' '] ++ joinSep [' '] (w2 :: ws)) = w :: w2 :: ws
      rw [List.append_assoc, fieldsGo_append_word w [] _ hw, List.append_nil,
        List.singleton_append, fieldsGo_cons, if_pos (by decide),
        list_isEmpty_false (by simpa using hne), List.reverse_reverse,
        ih htail]
      simp

lemma collapseLine_idem (w : List Char) :
    collapseLine (collapseLine w) = collapseLine w := by
  show joinSep [' '] (fieldsGo [] (joinSep [' '] (fieldsGo [] w))) = collapseLine w
  rw [fieldsGo_join (fieldsGo [] w)
    (fieldsGo_words_good w [] (fun c hc => absurd hc (List.not_mem_nil c)))]
  rfl

lemma joinSep_cons2 (sep w w2 : List Char) (ws : List (List Char)) :
    joinSep sep (w :: w2 :: ws) = w ++ (sep ++ joinSep sep (w2 :: ws)) := by
  rw [joinSep.eq_def]
  simp

lemma joinSep_mem {sep : List Char} : ∀ (ws : List (List Char)) (c : Char),
    c ∈ joinSep sep ws → (∃ w ∈ ws, c ∈ w) ∨ c ∈ sep := by
  intro ws
  induction ws with
  | nil => intro c hc; cases hc
  | cons w ws ih =>
    intro c hc
    rcases ws with _ | ⟨w2, ws⟩
    · exact Or.inl ⟨w, List.mem_singleton_self w, hc⟩
    · show (∃ u ∈ w :: w2 :: ws, c ∈ u) ∨ c ∈ sep
      rw [joinSep_cons2] at hc
      rcases List.mem_append.mp hc with h1 | h1
      · exact Or.inl ⟨w, List.mem_cons_self w _, h1⟩
      · rcases List.mem_append.mp h1 with h2 | h2
        · exact Or.inr h2
        · rcases ih c h2 with ⟨u, hu, hcu⟩ | hs
          · exact Or.inl ⟨u, List.mem_cons_of_mem _ hu, hcu⟩
          · exact Or.inr hs

lemma collapseLine_chars {w : List Char} {c : Char} (h : c ∈ collapseLine w) :
    (c ∈ w ∧ isGoSpace c = false) ∨ c = ' ' := by
  rcases joinSep_mem (fieldsGo [] w) c h with ⟨u, hu, hcu⟩ | hs
  · left
    refine ⟨?_, (fieldsGo_words_good w []
      (fun d hd => absurd hd (List.not_mem_nil d)) u hu).2 c hcu⟩
    rcases fieldsGo_word_chars w [] u hu c hcu with h' | h'
    · cases h'
    · exact h'
  · right
    exact List.mem_singleton.mp hs

/-! ## Whitespace lemmas: escape-freeness closure -/

lemma hasEsc_single (a : Char) : hasEsc [a] = false := by
  by_cases h : a = '\\'
  · subst h
    decide
  · rw [hasEsc_cons_other _ h]
    rfl

lemma hasEsc_esc_eq (d : Char) (l : List Char) :
    hasEsc ('\\' :: d :: l) = (isRVF d || hasEsc (d :: l)) := by
  rw [hasEsc.eq_def]
  split <;> simp_all
  rename_i hno heq
  obtain ⟨h1, h2⟩ := heq
  exact absurd h2.symm (hno d l h1.symm)

lemma hasEsc_append_right : ∀ (u v : List Char),
    hasEsc (u ++ v) = false → hasEsc v = false := by
  intro u
  induction u with
  | nil => intro v h; exact h
  | cons a u ih =>
    intro v h
    simp only [List.cons_append] at h
    exact ih v (hasEsc_cons_false h)

lemma hasEsc_append_left : ∀ (u v : List Char),
    hasEsc (u ++ v) = false → hasEsc u = false := by
  intro u
  induction u with
  | nil => intro v _; rfl
  | cons a u ih =>
    intro v h
    simp only [List.cons_append] at h
    by_cases ha : a = '\\'
    · subst ha
      rcases u with _ | ⟨d, u⟩
      · exact hasEsc_single '\\'
      · simp only [List.cons_append] at h
        rw [hasEsc_esc_eq] at h
        rw [hasEsc_esc_eq]
        simp only [Bool.or_eq_false_iff] at h ⊢
        exact ⟨h.1, ih v (by simp only [List.cons_append]; exact h.2)⟩
    · rw [hasEsc_cons_other _ ha] at h ⊢
      exact ih v h

lemma hasEsc_build {a : Char} {l : List Char} (hl : hasEsc l = false)
    (h : a ≠ '\\' ∨ ∀ d t, l = d :: t → isRVF d = false) :
    hasEsc (a :: l) = false := by
  by_cases ha : a = '\\'
  · subst ha
    rcases l with _ | ⟨d, t⟩
    · exact hasEsc_single '\\'
    · rw [hasEsc_esc_eq]
      rcases h with h | h
      · exact absurd rfl h
      · simp [h d t rfl, hl]
  · rw [hasEsc_cons_other _ ha]
    exact hl

lemma hasEsc_append_sep {s : Char} (hs : s ≠ '\\') (hrs : isRVF s = false) :
    ∀ (u v : List Char), hasEsc u = false → hasEsc v = false →
      hasEsc (u ++ s :: v) = false := by
  intro u
  induction u with
  | nil =>
    intro v _ hv
    rw [List.nil_append, hasEsc_cons_other _ hs]
    exact hv
  | cons a u ih =>
    intro v hu hv
    simp only [List.cons_append]
    by_cases ha : a = '\\'
    · subst ha
      rcases u with _ | ⟨d, u⟩
      · rw [List.nil_append, hasEsc_esc_eq]
        simp only [Bool.or_eq_false_iff]
        exact ⟨hrs, by rw [hasEsc_cons_other _ hs]; exact hv⟩
      · simp only [List.cons_append]
        rw [hasEsc_esc_eq]
        simp only [Bool.or_eq_false_iff]
        refine ⟨hasEsc_esc_pair hu, ?_⟩
        have hres := ih v (hasEsc_cons_false hu) hv
        simpa using hres
    · rw [hasEsc_cons_other _ ha]
      exact ih v (hasEsc_cons_false hu) hv

lemma joinSep_one (sep w : List Char) : joinSep sep [w] = w := by
  rw [joinSep.eq_def]

lemma hasEsc_joinSep {s : Char} (hs : s ≠ '\\') (hrs : isRVF s = false) :
    ∀ ws : List (List Char), (∀ w ∈ ws, hasEsc w = false) →
      hasEsc (joinSep [s] ws) = false := by
  intro ws
  induction ws with
  | nil => intro _; rfl
  | cons w ws ih =>
    intro h
    rcases ws with _ | ⟨w2, ws⟩
    · rw [joinSep_one]
      exact h w (List.mem_singleton_self w)
    · rw [joinSep_cons2, List.singleton_append]
      exact hasEsc_append_sep hs hrs w _ (h w (List.mem_cons_self w _))
        (ih fun w' hw' => h w' (List.mem_cons_of_mem _ hw'))

/-! ## Whitespace lemmas: line splitting -/

lemma splitNl_nil : splitNl [] = [[]] := rfl

lemma splitNl_cons_nl (m : List Char) : splitNl ('\n' :: m) = [] :: splitNl m := by
  rw [splitNl.eq_def]
  simp

lemma splitNl_ne_nil : ∀ l : List Char, splitNl l ≠ [] := by
  intro l
  induction l with
  | nil => simp [splitNl_nil]
  | cons c rest ih =>
    rw [splitNl.eq_def]
    dsimp only
    by_cases hc : c = '\n'
    · rw [if_pos hc]
      simp
    · rw [if_neg hc]
      rcases h : splitNl rest with _ | ⟨w, ws⟩
      · simp
      · simp

lemma splitNl_cons_other {c : Char} {m w : List Char} {ws : List (List Char)}
    (hc : c ≠ '\n') (h : splitNl m = w :: ws) :
    splitNl (c :: m) = (c :: w) :: ws := by
  rw [splitNl.eq_def]
  simp [hc, h]

lemma splitNl_no_nl_lines : ∀ (l : List Char), ∀ w ∈ splitNl l, '\n' ∉ w := by
  intro l
  induction l with
  | nil =>
    intro w hw
    rw [splitNl_nil, List.mem_singleton] at hw
    subst hw
    simp
  | cons c rest ih =>
    intro w hw
    by_cases hc : c = '\n'
    · subst hc
      rw [splitNl_cons_nl] at hw
      rcases List.mem_cons.mp hw with hw | hw
      · subst hw
        simp
      · exact ih w hw
    · rcases hsp : splitNl rest with _ | ⟨w0, ws0⟩
      · exact absurd hsp (splitNl_ne_nil rest)
      · rw [splitNl_cons_other hc hsp] at hw
        rcases List.mem_cons.mp hw with hw | hw
        · subst hw
          intro hmem
          rcases List.mem_cons.mp hmem with h | h
          · exact hc h.symm
          · exact ih w0 (by rw [hsp]; exact List.mem_cons_self w0 ws0) h
        · exact ih w (by rw [hsp]; exact List.mem_cons_of_mem _ hw)

lemma splitNl_append_nl : ∀ (w m : List Char), (∀ c ∈ w, c ≠ '\n') →
    splitNl (w ++ '\n' :: m) = w :: splitNl m := by
  intro w
  induction w with
  | nil =>
    intro m _
    rw [List.nil_append, splitNl_cons_nl]
  | cons a w ih =>
    intro m h
    rw [List.cons_append, splitNl_cons_other (h a (List.mem_cons_self a w))
      (ih m (fun c hc => h c (List.mem_cons_of_mem _ hc)))]

lemma splitNl_no_nl : ∀ (w : List Char), (∀ c ∈ w, c ≠ '\n') → splitNl w = [w] := by
  intro w
  induction w with
  | nil => intro _; rfl
  | cons a w ih =>
    intro h
    rw [splitNl_cons_other (h a (List.mem_cons_self a w))
      (ih (fun c hc => h c (List.mem_cons_of_mem _ hc)))]

lemma joinNl_splitNl : ∀ l : List Char, joinSep ['\n'] (splitNl l) = l := by
  intro l
  induction l with
  | nil => rfl
  | cons c rest ih =>
    by_cases hc : c = '\n'
    · subst hc
      rw [splitNl_cons_nl]
      rcases hsp : splitNl rest with _ | ⟨w, ws⟩
      · exact absurd hsp (splitNl_ne_nil rest)
      · rw [joinSep_cons2, List.nil_append, List.singleton_append, ← hsp, ih]
    · rcases hsp : splitNl rest with _ | ⟨w, ws⟩
      · exact absurd hsp (splitNl_ne_nil rest)
      · rw [splitNl_cons_other hc hsp]
        rcases ws with _ | ⟨w2, ws⟩
        · have hw : w = rest := by
            have hih := ih
            rw [hsp, joinSep_one] at hih
            exact hih
          rw [joinSep_one, hw]
        · rw [joinSep_cons2, List.cons_append]
          have hih := ih
          rw [hsp, joinSep_cons2] at hih
          rw [hih]

lemma splitNl_join : ∀ ws : List (List Char), ws ≠ [] →
    (∀ w ∈ ws, ∀ c ∈ w, c ≠ '\n') →
    splitNl (joinSep ['\n'] ws) = ws := by
  intro ws
  induction ws with
  | nil => intro h _; exact absurd rfl h
  | cons w ws ih =>
    intro _ h
    rcases ws with _ | ⟨w2, ws⟩
    · rw [joinSep_one]
      exact splitNl_no_nl w (h w (List.mem_cons_self w _))
    · rw [joinSep_cons2, List.singleton_append,
        splitNl_append_nl w _ (h w (List.mem_cons_self w _)),
        ih (by simp) (fun w' hw' => h w' (List.mem_cons_of_mem _ hw'))]

lemma splitNl_replicate : ∀ (j : Nat) (m : List Char),
    splitNl (List.replicate j '\n' ++ m) = List.replicate j [] ++ splitNl m := by
  intro j
  induction j with
  | zero => intro m; rfl
  | succ j ih =>
    intro m
    rw [List.replicate_succ, List.cons_append, splitNl_cons_nl, ih,
      List.replicate_succ, List.cons_append]

lemma splitNl_head_shape : ∀ (r : List Char) (d : Char) (w0 : List Char)
    (ws0 : List (List Char)),
    splitNl r = (d :: w0) :: ws0 → ∃ t, r = d :: t := by
  intro r d w0 ws0 h
  rcases r with _ | ⟨e, r'⟩
  · rw [splitNl_nil] at h
    injection h with h1
    cases h1
  · by_cases he : e = '\n'
    · subst he
      rw [splitNl_cons_nl] at h
      injection h with h1
      cases h1
    · rcases hsp : splitNl r' with _ | ⟨w1, ws1⟩
      · exact absurd hsp (splitNl_ne_nil r')
      · rw [splitNl_cons_other he hsp] at h
        injection h with h1
        injection h1 with h2
        exact ⟨r', by rw [h2]⟩

lemma splitNl_esc : ∀ (x : List Char), hasEsc x = false →
    ∀ w ∈ splitNl x, hasEsc w = false := by
  intro x
  induction x with
  | nil =>
    intro _ w hw
    rw [splitNl_nil, List.mem_singleton] at hw
    subst hw
    rfl
  | cons c rest ih =>
    intro h w hw
    have hrest := hasEsc_cons_false h
    by_cases hc : c = '\n'
    · subst hc
      rw [splitNl_cons_nl] at hw
      rcases List.mem_cons.mp hw with hw | hw
      · subst hw
        rfl
      · exact ih hrest w hw
    · rcases hsp : splitNl rest with _ | ⟨w0, ws0⟩
      · exact absurd hsp (splitNl_ne_nil rest)
      · rw [splitNl_cons_other hc hsp] at hw
        rcases List.mem_cons.mp hw with hw | hw
        · subst hw
          by_cases hbs : c = '\\'
          · subst hbs
            rcases w0 with _ | ⟨d, w0⟩
            · exact hasEsc_single '\\'
            · obtain ⟨t, ht⟩ := splitNl_head_shape rest d w0 ws0 hsp
              rw [hasEsc_esc_eq]
              simp only [Bool.or_eq_false_iff]
              constructor
              · rw [ht] at h
                exact hasEsc_esc_pair h
              · exact ih hrest (d :: w0) (by rw [hsp]; exact List.mem_cons_self _ _)
          · rw [hasEsc_cons_other _ hbs]
            exact ih hrest w0 (by rw [hsp]; exact List.mem_cons_self _ _)
        · exact ih hrest w (by rw [hsp]; exact List.mem_cons_of_mem _ hw)

/-! ## Whitespace lemmas: the horizontal pass -/

lemma fieldsGo_words_esc : ∀ (l acc : List Char),
    hasEsc (acc.reverse ++ l) = false →
    ∀ w ∈ fieldsGo acc l, hasEsc w = false := by
  intro l
  induction l with
  | nil =>
    intro acc h w hw
    rw [fieldsGo_nil] at hw
    split at hw
    · cases hw
    · rw [List.mem_singleton] at hw
      subst hw
      rw [List.append_nil] at h
      exact h
  | cons a l ih =>
    intro acc h w hw
    rw [fieldsGo_cons] at hw
    by_cases hs : isGoSpace a
    · rw [if_pos hs] at hw
      have hl : hasEsc l = false :=
        hasEsc_cons_false (hasEsc_append_right acc.reverse _ h)
      have htail : ∀ w' ∈ fieldsGo [] l, hasEsc w' = false := by
        intro w' hw'
        exact ih [] (by rw [List.reverse_nil, List.nil_append]; exact hl) w' hw'
      split at hw
      · exact htail w hw
      · rcases List.mem_cons.mp hw with hw | hw
        · subst hw
          exact hasEsc_append_left acc.reverse _ h
        · exact htail w hw
    · rw [if_neg hs] at hw
      refine ih (a :: acc) ?_ w hw
      rw [List.reverse_cons, List.append_assoc, List.singleton_append]
      exact h

lemma collapseLine_esc {w : List Char} (h : hasEsc w = false) :
    hasEsc (collapseLine w) = false := by
  apply hasEsc_joinSep (by decide) (by decide)
  intro u hu
  exact fieldsGo_words_esc w []
    (by rw [List.reverse_nil, List.nil_append]; exact h) u hu

lemma trimH_esc {x : List Char} (h : hasEsc x = false) :
    hasEsc (trimHorizontalWhitespace x) = false := by
  unfold trimHorizontalWhitespace
  apply hasEsc_joinSep (by decide) (by decide)
  intro u hu
  obtain ⟨w, hwmem, hw⟩ := List.mem_map.mp hu
  rw [← hw]
  exact collapseLine_esc (splitNl_esc x h w hwmem)

lemma trimH_noCtl {x : List Char} :
    ∀ c ∈ trimHorizontalWhitespace x, isCtlVert c = false := by
  intro c hc
  unfold trimHorizontalWhitespace at hc
  have hchar : isGoSpace c = false ∨ c = ' ' ∨ c = '\n' := by
    rcases joinSep_mem _ c hc with ⟨u, hu, hcu⟩ | hs
    · obtain ⟨w, _, hw⟩ := List.mem_map.mp hu
      rcases collapseLine_chars (show c ∈ collapseLine w by rw [hw]; exact hcu) with
        ⟨_, hns⟩ | hsp
      · exact Or.inl hns
      · exact Or.inr (Or.inl hsp)
    · exact Or.inr (Or.inr (List.mem_singleton.mp hs))
  rcases hchar with h | h | h
  · cases hct : isCtlVert c
    · rfl
    · rw [ctlVert_isGoSpace hct] at h
      cases h
  · rw [h]
    decide
  · rw [h]
    decide

lemma collapseLine_no_nl (w : List Char) : '\n' ∉ collapseLine w := by
  intro h
  rcases collapseLine_chars h with ⟨_, hns⟩ | hsp
  · exact absurd hns (by decide)
  · exact absurd hsp (by decide)

lemma goodLines_trimH (x : List Char) : goodLines (trimHorizontalWhitespace x) = true := by
  unfold goodLines trimHorizontalWhitespace
  rw [splitNl_join ((splitNl x).map collapseLine)
    (by
      rcases hsp : splitNl x with _ | ⟨w, ws⟩
      · exact absurd hsp (splitNl_ne_nil x)
      · simp)
    (by
      intro w hw c hc hceq
      obtain ⟨w0, _, hw0⟩ := List.mem_map.mp hw
      rw [hceq] at hc
      rw [← hw0] at hc
      exact collapseLine_no_nl w0 hc)]
  rw [List.all_eq_true]
  intro w hw
  obtain ⟨w0, _, hw0⟩ := List.mem_map.mp hw
  rw [← hw0]
  simp [collapseLine_idem]

lemma map_self_of_fixed {α : Type} (f : α → α) : ∀ l : List α,
    (∀ a ∈ l, f a = a) → l.map f = l := by
  intro l
  induction l with
  | nil => intro _; rfl
  | cons a l ih =>
    intro h
    rw [List.map_cons, h a (List.mem_cons_self a l),
      ih (fun b hb => h b (List.mem_cons_of_mem _ hb))]

lemma trimH_id_of_goodLines {z : List Char} (h : goodLines z = true) :
    trimHorizontalWhitespace z = z := by
  have hfix : ∀ w ∈ splitNl z, collapseLine w = w := by
    unfold goodLines at h
    rw [List.all_eq_true] at h
    intro w hw
    exact eq_of_beq (h w hw)
  unfold trimHorizontalWhitespace
  rw [map_self_of_fixed collapseLine (splitNl z) hfix, joinNl_splitNl]

/-! ## Whitespace lemmas: what newline collapse preserves -/

lemma emitNl_chars {k : Nat} {c : Char} (h : c ∈ emitNl k) : c = '\n' := by
  unfold emitNl at h
  split at h
  · rcases List.mem_cons.mp h with h | h
    · exact h
    · exact List.mem_singleton.mp h
  · exact List.eq_of_mem_replicate h

lemma collapseNl_chars : ∀ (l : List Char) (k : Nat) (c : Char),
    c ∈ collapseNl k l → c = '\n' ∨ c ∈ l := by
  intro l
  induction l with
  | nil =>
    intro k c h
    rw [collapseNl_nil] at h
    exact Or.inl (emitNl_chars h)
  | cons a l ih =>
    intro k c h
    by_cases ha : a = '\n'
    · subst ha
      rw [collapseNl_newline] at h
      rcases ih (k + 1) c h with h | h
      · exact Or.inl h
      · exact Or.inr (List.mem_cons_of_mem _ h)
    · rw [collapseNl_other _ _ ha] at h
      rcases List.mem_append.mp h with h | h
      · exact Or.inl (emitNl_chars h)
      · rcases List.mem_cons.mp h with h | h
        · exact Or.inr (by rw [h]; exact List.mem_cons_self a l)
        · rcases ih 0 c h with h | h
          · exact Or.inl h
          · exact Or.inr (List.mem_cons_of_mem _ h)

lemma emitNl_pos {k : Nat} (h : 1 ≤ k) : ∃ t, emitNl k = '\n' :: t := by
  unfold emitNl
  split
  · exact ⟨['\n'], rfl⟩
  · rcases k with _ | k
    · omega
    · exact ⟨List.replicate k '\n', List.replicate_succ '\n' k⟩

lemma collapseNl_head_pos : ∀ (l : List Char) (k : Nat), 1 ≤ k →
    (collapseNl k l).head? = some '\n' := by
  intro l
  induction l with
  | nil =>
    intro k hk
    rw [collapseNl_nil]
    obtain ⟨t, ht⟩ := emitNl_pos hk
    rw [ht]
    rfl
  | cons a l ih =>
    intro k hk
    by_cases ha : a = '\n'
    · subst ha
      rw [collapseNl_newline]
      exact ih (k + 1) (by omega)
    · rw [collapseNl_other _ _ ha]
      obtain ⟨t, ht⟩ := emitNl_pos hk
      rw [ht]
      rfl

lemma collapseNl_head0 : ∀ l : List Char, (collapseNl 0 l).head? = l.head? := by
  intro l
  rcases l with _ | ⟨a, l⟩
  · rfl
  · by_cases ha : a = '\n'
    · subst ha
      rw [collapseNl_newline]
      have hh := collapseNl_head_pos l (0 + 1) (by omega)
      rw [hh]
      rfl
    · rw [collapseNl_other _ _ ha]
      rfl

lemma hasEsc_of_no_bs : ∀ w : List Char, (∀ c ∈ w, c ≠ '\\') → hasEsc w = false := by
  intro w
  induction w with
  | nil => intro _; rfl
  | cons a w ih =>
    intro h
    rw [hasEsc_cons_other _ (h a (List.mem_cons_self a w))]
    exact ih (fun c hc => h c (List.mem_cons_of_mem _ hc))

lemma hasEsc_prepend_nl : ∀ (u w : List Char), (∀ c ∈ u, c = '\n') →
    hasEsc w = false → hasEsc (u ++ w) = false := by
  intro u
  induction u with
  | nil => intro w _ hw; exact hw
  | cons a u ih =>
    intro w h hw
    simp only [List.cons_append]
    rw [hasEsc_cons_other _ (by rw [h a (List.mem_cons_self a u)]; decide)]
    exact ih w (fun c hc => h c (List.mem_cons_of_mem _ hc)) hw

lemma hasEsc_collapseNl : ∀ (l : List Char) (k : Nat), hasEsc l = false →
    hasEsc (collapseNl k l) = false := by
  intro l
  induction l with
  | nil =>
    intro k _
    rw [collapseNl_nil]
    exact hasEsc_of_no_bs _ (fun c hc => by rw [emitNl_chars hc]; decide)
  | cons a l ih =>
    intro k h
    by_cases ha : a = '\n'
    · subst ha
      rw [collapseNl_newline]
      exact ih (k + 1) (hasEsc_cons_false h)
    · rw [collapseNl_other _ _ ha]
      have htail : hasEsc (a :: collapseNl 0 l) = false := by
        apply hasEsc_build (ih 0 (hasEsc_cons_false h))
        by_cases hbs : a = '\\'
        · subst hbs
          right
          intro d t hdt
          have hhd : l.head? = some d := by
            rw [← collapseNl_head0 l, hdt]
            rfl
          rcases l with _ | ⟨e, l'⟩
          · cases hhd
          · injection hhd with he
            subst he
            exact hasEsc_esc_pair h
        · exact Or.inl hbs
      exact hasEsc_prepend_nl (emitNl k) _ (fun c hc => emitNl_chars hc) htail

lemma hasTriple_three (t : List Char) : hasTriple ('\n' :: '\n' :: '\n' :: t) = true := by
  rw [hasTriple.eq_def]
  split
  · rfl
  · rename_i hno heq
    injection heq with h1 h2
    exact (hno t h1.symm h2.symm).elim
  · rename_i heq
    cases heq

lemma hasTriple_cons_other {c : Char} (w : List Char) (h : c ≠ '\n') :
    hasTriple (c :: w) = hasTriple w := by
  rw [hasTriple.eq_def]
  split <;> simp_all

lemma hasTriple_cons_false {c : Char} {w : List Char} (h : hasTriple (c :: w) = false) :
    hasTriple w = false := by
  rw [hasTriple.eq_def] at h
  split at h <;> simp_all

lemma hasTriple_append_right : ∀ (u w : List Char),
    hasTriple (u ++ w) = false → hasTriple w = false := by
  intro u
  induction u with
  | nil => intro w h; exact h
  | cons a u ih =>
    intro w h
    simp only [List.cons_append] at h
    exact ih w (hasTriple_cons_false h)

lemma hasTriple_nn {w : List Char} (h : w.head? ≠ some '\n') :
    hasTriple ('\n' :: '\n' :: w) = hasTriple ('\n' :: w) := by
  rcases w with _ | ⟨e, w'⟩
  · decide
  · have he : e ≠ '\n' := by
      intro hh
      rw [hh] at h
      exact h rfl
    rw [hasTriple.eq_def]
    split <;> simp_all

lemma hasTriple_n {w : List Char} (h : w.head? ≠ some '\n') :
    hasTriple ('\n' :: w) = hasTriple w := by
  rcases w with _ | ⟨e, w'⟩
  · decide
  · have he : e ≠ '\n' := by
      intro hh
      rw [hh] at h
      exact h rfl
    rw [hasTriple.eq_def]
    split <;> simp_all

lemma emitNl_cases (k : Nat) :
    emitNl k = [] ∨ emitNl k = ['\n'] ∨ emitNl k = ['\n', '\n'] := by
  unfold emitNl
  split
  · right; right; rfl
  · rename_i h
    have h3 : k < 3 := by omega
    interval_cases k
    · left; rfl
    · right; left; rfl
    · right; right; rfl

lemma noTriple_collapseNl : ∀ (l : List Char) (k : Nat),
    hasTriple (collapseNl k l) = false := by
  intro l
  induction l with
  | nil =>
    intro k
    rw [collapseNl_nil]
    rcases emitNl_cases k with h | h | h <;> rw [h] <;> decide
  | cons a l ih =>
    intro k
    by_cases ha : a = '\n'
    · subst ha
      rw [collapseNl_newline]
      exact ih (k + 1)
    · rw [collapseNl_other _ _ ha]
      have hhd : (a :: collapseNl 0 l).head? ≠ some '\n' := by
        intro hh
        injection hh with hh
        exact ha hh
      have hbase : hasTriple (a :: collapseNl 0 l) = false := by
        rw [hasTriple_cons_other _ ha]
        exact ih 0
      rcases emitNl_cases k with h | h | h <;> rw [h]
      · rw [List.nil_append]
        exact hbase
      · rw [List.singleton_append, hasTriple_n hhd]
        exact hbase
      · have hstep : (['\n', '\n'] : List Char) ++ (a :: collapseNl 0 l) =
            '\n' :: '\n' :: (a :: collapseNl 0 l) := rfl
        rw [hstep, hasTriple_nn hhd, hasTriple_n hhd]
        exact hbase

lemma hasTriple_rep3 {k : Nat} (w : List Char) (h : 3 ≤ k) :
    hasTriple (List.replicate k '\n' ++ w) = true := by
  rcases k with _ | k
  · omega
  rcases k with _ | k
  · omega
  rcases k with _ | k
  · omega
  rw [List.replicate_succ, List.replicate_succ, List.replicate_succ]
  simp only [List.cons_append]
  exact hasTriple_three _

lemma collapseNl_id_gen : ∀ (l : List Char) (k : Nat),
    hasTriple (List.replicate k '\n' ++ l) = false →
    collapseNl k l = List.replicate k '\n' ++ l := by
  intro l
  induction l with
  | nil =>
    intro k h
    rw [collapseNl_nil, List.append_nil]
    have hk : ¬3 ≤ k := by
      intro h3
      rw [hasTriple_rep3 [] h3] at h
      cases h
    exact emitNl_small k hk
  | cons a l ih =>
    intro k h
    by_cases ha : a = '\n'
    · subst ha
      rw [collapseNl_newline]
      have heq : List.replicate k '\n' ++ '\n' :: l = List.replicate (k + 1) '\n' ++ l := by
        rw [List.replicate_succ']
        simp
      rw [heq] at h
      rw [ih (k + 1) h, heq]
    · rw [collapseNl_other _ _ ha]
      have hk : ¬3 ≤ k := by
        intro h3
        rw [hasTriple_rep3 (a :: l) h3] at h
        cases h
      have hl : hasTriple l = false :=
        hasTriple_cons_false (hasTriple_append_right (List.replicate k '\n') _ h)
      have hid := ih 0 (by simpa using hl)
      rw [List.replicate_zero, List.nil_append] at hid
      rw [emitNl_small k hk, hid]

lemma collapseNl_id0 {l : List Char} (h : hasTriple l = false) :
    collapseNl 0 l = l := by
  have hg := collapseNl_id_gen l 0 (by simpa using h)
  simpa using hg

/-! ## Whitespace lemmas: lines of the collapsed text -/

lemma collapseNl_all_other : ∀ (w : List Char), (∀ c ∈ w, c ≠ '\n') →
    ∀ k, collapseNl k w = emitNl k ++ w := by
  intro w hw k
  rcases w with _ | ⟨c, w'⟩
  · rw [collapseNl_nil, List.append_nil]
  · rw [collapseNl_other _ _ (hw c (List.mem_cons_self c w'))]
    have h1 := collapseNl_copy w' [] (fun d hd => hw d (List.mem_cons_of_mem _ hd))
    rw [List.append_nil, collapseNl_nil] at h1
    have h2 : emitNl 0 = [] := rfl
    rw [h2, List.append_nil] at h1
    rw [h1]

lemma lines_collapseNl_pos : ∀ (n : Nat) (z : List Char) (k : Nat),
    (splitNl z).length ≤ n → 1 ≤ k →
    ∀ u ∈ splitNl (collapseNl k z), u = [] ∨ u ∈ splitNl z := by
  intro n
  induction n with
  | zero =>
    intro z k hn _ u _
    exact absurd (List.eq_nil_of_length_eq_zero (Nat.le_zero.mp hn)) (splitNl_ne_nil z)
  | succ n ih =>
    intro z k hn hk u hu
    rcases hsp : splitNl z with _ | ⟨w, ws⟩
    · exact absurd hsp (splitNl_ne_nil z)
    have hwn : ∀ c ∈ w, c ≠ '\n' := by
      intro c hc hcn
      have hmem := splitNl_no_nl_lines z w (by rw [hsp]; exact List.mem_cons_self _ _)
      rw [hcn] at hc
      exact hmem hc
    rcases ws with _ | ⟨w2, ws⟩
    · have hz : z = w := by
        have hj := joinNl_splitNl z
        rw [hsp, joinSep_one] at hj
        exact hj.symm
      rw [hz, collapseNl_all_other w hwn k] at hu
      rcases emitNl_cases k with he | he | he
      · obtain ⟨t, ht⟩ := emitNl_pos hk
        rw [ht] at he
        cases he
      · rw [he, List.singleton_append, splitNl_cons_nl, splitNl_no_nl w hwn] at hu
        rcases List.mem_cons.mp hu with h0 | h0
        · exact Or.inl h0
        · rw [List.mem_singleton] at h0
          exact Or.inr (by rw [h0]; exact List.mem_cons_self _ _)
      · have hstep : (['\n', '\n'] : List Char) ++ w = '\n' :: '\n' :: w := rfl
        rw [he, hstep, splitNl_cons_nl, splitNl_cons_nl, splitNl_no_nl w hwn] at hu
        rcases List.mem_cons.mp hu with h0 | h0
        · exact Or.inl h0
        rcases List.mem_cons.mp h0 with h1 | h1
        · exact Or.inl h1
        · rw [List.mem_singleton] at h1
          exact Or.inr (by rw [h1]; exact List.mem_cons_self _ _)
    · have hz : z = w ++ '\n' :: joinSep ['\n'] (w2 :: ws) := by
        have hj := joinNl_splitNl z
        rw [hsp, joinSep_cons2, List.singleton_append] at hj
        exact hj.symm
      have hspm : splitNl (joinSep ['\n'] (w2 :: ws)) = w2 :: ws := by
        apply splitNl_join
        · simp
        · intro w' hw' c hc hcn
          have hmem := splitNl_no_nl_lines z w'
            (by rw [hsp]; exact List.mem_cons_of_mem _ hw')
          rw [hcn] at hc
          exact hmem hc
      have hfuel : (splitNl (joinSep ['\n'] (w2 :: ws))).length ≤ n := by
        rw [hspm]
        rw [hsp] at hn
        simp only [List.length_cons] at hn ⊢
        omega
      rcases w with _ | ⟨a, w'⟩
      · rw [hz, List.nil_append, collapseNl_newline] at hu
        rcases ih (joinSep ['\n'] (w2 :: ws)) (k + 1) hfuel (by omega) u hu with h0 | h0
        · exact Or.inl h0
        · rw [hspm] at h0
          exact Or.inr (List.mem_cons_of_mem _ h0)
      · have hhead := collapseNl_head_pos (joinSep ['\n'] (w2 :: ws)) (0 + 1) (by omega)
        rcases hc2 : collapseNl (0 + 1) (joinSep ['\n'] (w2 :: ws)) with _ | ⟨e, t⟩
        · rw [hc2] at hhead
          cases hhead
        · rw [hc2] at hhead
          injection hhead with he
          subst he
          have hcol : collapseNl k z = emitNl k ++ (a :: (w' ++ '\n' :: t)) := by
            rw [hz]
            simp only [List.cons_append]
            rw [collapseNl_other _ _ (hwn a (List.mem_cons_self a w'))]
            rw [collapseNl_copy w' _ (fun c hc => hwn c (List.mem_cons_of_mem _ hc))]
            rw [collapseNl_newline, hc2]
          have hsplit2 : splitNl (a :: (w' ++ '\n' :: t)) = (a :: w') :: splitNl t := by
            have hsa : splitNl ((a :: w') ++ '\n' :: t) = (a :: w') :: splitNl t :=
              splitNl_append_nl (a :: w') t hwn
            simpa using hsa
          have hmemt : ∀ v ∈ splitNl t, v = [] ∨ v ∈ (a :: w') :: w2 :: ws := by
            intro v hv
            have hvm : v ∈ splitNl (collapseNl (0 + 1) (joinSep ['\n'] (w2 :: ws))) := by
              rw [hc2, splitNl_cons_nl]
              exact List.mem_cons_of_mem _ hv
            rcases ih (joinSep ['\n'] (w2 :: ws)) (0 + 1) hfuel (by omega) v hvm with h0 | h0
            · exact Or.inl h0
            · rw [hspm] at h0
              exact Or.inr (List.mem_cons_of_mem _ h0)
          rw [hcol] at hu
          rcases emitNl_cases k with he | he | he
          · obtain ⟨t0, ht0⟩ := emitNl_pos hk
            rw [ht0] at he
            cases he
          · rw [he, List.singleton_append, splitNl_cons_nl, hsplit2] at hu
            rcases List.mem_cons.mp hu with h0 | h0
            · exact Or.inl h0
            rcases List.mem_cons.mp h0 with h1 | h1
            · exact Or.inr (by rw [h1]; exact List.mem_cons_self _ _)
            · exact hmemt u h1
          · have hstep : (['\n', '\n'] : List Char) ++ (a :: (w' ++ '\n' :: t)) =
                '\n' :: '\n' :: (a :: (w' ++ '\n' :: t)) := rfl
            rw [he, hstep, splitNl_cons_nl, splitNl_cons_nl, hsplit2] at hu
            rcases List.mem_cons.mp hu with h0 | h0
            · exact Or.inl h0
            rcases List.mem_cons.mp h0 with h1 | h1
            · exact Or.inl h1
            rcases List.mem_cons.mp h1 with h2 | h2
            · exact Or.inr (by rw [h2]; exact List.mem_cons_self _ _)
            · exact hmemt u h2

lemma lines_collapseNl0 : ∀ (z : List Char),
    ∀ u ∈ splitNl (collapseNl 0 z), u = [] ∨ u ∈ splitNl z := by
  intro z u hu
  rcases hsp : splitNl z with _ | ⟨w, ws⟩
  · exact absurd hsp (splitNl_ne_nil z)
  have hwn : ∀ c ∈ w, c ≠ '\n' := by
    intro c hc hcn
    have hmem := splitNl_no_nl_lines z w (by rw [hsp]; exact List.mem_cons_self _ _)
    rw [hcn] at hc
    exact hmem hc
  rcases ws with _ | ⟨w2, ws⟩
  · have hz : z = w := by
      have hj := joinNl_splitNl z
      rw [hsp, joinSep_one] at hj
      exact hj.symm
    rw [hz, collapseNl_all_other w hwn 0,
      show emitNl 0 = ([] : List Char) from rfl, List.nil_append,
      splitNl_no_nl w hwn, List.mem_singleton] at hu
    exact Or.inr (by rw [hu]; exact List.mem_cons_self _ _)
  · have hz : z = w ++ '\n' :: joinSep ['\n'] (w2 :: ws) := by
      have hj := joinNl_splitNl z
      rw [hsp, joinSep_cons2, List.singleton_append] at hj
      exact hj.symm
    have hspm : splitNl (joinSep ['\n'] (w2 :: ws)) = w2 :: ws := by
      apply splitNl_join
      · simp
      · intro w' hw' c hc hcn
        have hmem := splitNl_no_nl_lines z w'
          (by rw [hsp]; exact List.mem_cons_of_mem _ hw')
        rw [hcn] at hc
        exact hmem hc
    rcases w with _ | ⟨a, w'⟩
    · rw [hz, List.nil_append, collapseNl_newline] at hu
      rcases lines_collapseNl_pos (splitNl (joinSep ['\n'] (w2 :: ws))).length
        (joinSep ['\n'] (w2 :: ws)) (0 + 1) (le_refl _) (by omega) u hu with h0 | h0
      · exact Or.inl h0
      · rw [hspm] at h0
        exact Or.inr (List.mem_cons_of_mem _ h0)
    · have hhead := collapseNl_head_pos (joinSep ['\n'] (w2 :: ws)) (0 + 1) (by omega)
      rcases hc2 : collapseNl (0 + 1) (joinSep ['\n'] (w2 :: ws)) with _ | ⟨e, t⟩
      · rw [hc2] at hhead
        cases hhead
      · rw [hc2] at hhead
        injection hhead with he
        subst he
        have hcol : collapseNl 0 z = (a :: w') ++ '\n' :: t := by
          rw [hz]
          simp only [List.cons_append]
          rw [collapseNl_other _ _ (hwn a (List.mem_cons_self a w'))]
          rw [collapseNl_copy w' _ (fun c hc => hwn c (List.mem_cons_of_mem _ hc))]
          rw [collapseNl_newline, hc2]
          simp [emitNl]
        rw [hcol, splitNl_append_nl (a :: w') t hwn] at hu
        rcases List.mem_cons.mp hu with h0 | h0
        · exact Or.inr (by rw [h0]; exact List.mem_cons_self _ _)
        · have hvm : u ∈ splitNl (collapseNl (0 + 1) (joinSep ['\n'] (w2 :: ws))) := by
            rw [hc2, splitNl_cons_nl]
            exact List.mem_cons_of_mem _ h0
          rcases lines_collapseNl_pos (splitNl (joinSep ['\n'] (w2 :: ws))).length
            (joinSep ['\n'] (w2 :: ws)) (0 + 1) (le_refl _) (by omega) u hvm with h1 | h1
          · exact Or.inl h1
          · rw [hspm] at h1
            exact Or.inr (List.mem_cons_of_mem _ h1)

lemma goodLines_collapseNl {z : List Char} (h : goodLines z = true) :
    goodLines (collapseNl 0 z) = true := by
  unfold goodLines at h ⊢
  rw [List.all_eq_true] at h ⊢
  intro u hu
  rcases lines_collapseNl0 z u hu with h0 | h0
  · rw [h0]
    decide
  · exact h u h0

/-- Idempotence of the whole whitespace normalization on escape-free text:
the horizontal pass leaves only word characters, single spaces and
newlines; the vertical pass then only collapses newline runs, and a
second round finds nothing left to change. -/
lemma normalize_idem_of_no_esc : ∀ x : List Char, hasEsc x = false →
    normalizeWhitespace (normalizeWhitespace x) = normalizeWhitespace x := by
  intro x hx
  have hH := trimH_esc hx
  have hnoCtl := @trimH_noCtl x
  have h1 : escToNl (trimHorizontalWhitespace x) = trimHorizontalWhitespace x :=
    escToNl_id _ hH
  have h2 : ctlRunsToNl false (trimHorizontalWhitespace x) = trimHorizontalWhitespace x :=
    ctlRunsToNl_id _ hnoCtl
  have hy : normalizeWhitespace x = collapseNl 0 (trimHorizontalWhitespace x) := by
    unfold normalizeWhitespace trimVerticalWhitespace
    rw [h1, h2]
  set y := collapseNl 0 (trimHorizontalWhitespace x) with hyd
  have hgy : goodLines y = true := goodLines_collapseNl (goodLines_trimH x)
  have hHy : trimHorizontalWhitespace y = y := trimH_id_of_goodLines hgy
  have hey : hasEsc y = false := hasEsc_collapseNl _ 0 hH
  have hcy : ∀ c ∈ y, isCtlVert c = false := by
    intro c hc
    rcases collapseNl_chars _ 0 c hc with h | h
    · rw [h]
      decide
    · exact hnoCtl c h
  have hty : hasTriple y = false := noTriple_collapseNl _ 0
  rw [hy]
  show normalizeWhitespace y = y
  unfold normalizeWhitespace trimVerticalWhitespace
  rw [hHy, escToNl_id _ hey, ctlRunsToNl_id _ hcy, collapseNl_id0 hty]

/-! ## Marker stripping -/

lemma stripAnsi_cons_ne {a : Char} (t : List Char) (h : a ≠ escCh) :
    stripAnsi (a :: t) = a :: stripAnsi t := by
  rcases t with _ | ⟨b, t⟩
  · rfl
  rcases t with _ | ⟨c, t⟩
  · rfl
  rcases t with _ | ⟨d, t⟩
  · rfl
  rcases t with _ | ⟨e, t⟩
  · rw [stripAnsi.eq_def]
    simp [h]
  · rw [stripAnsi.eq_def]
    simp [h]

lemma stripAnsi_copy : ∀ (u v : List Char), (∀ c ∈ u, c ≠ escCh) →
    stripAnsi (u ++ v) = u ++ stripAnsi v := by
  intro u
  induction u with
  | nil => intro v _; rfl
  | cons a u ih =>
    intro v h
    simp only [List.cons_append]
    rw [stripAnsi_cons_ne _ (h a (List.mem_cons_self a u)),
      ih v (fun c hc => h c (List.mem_cons_of_mem _ hc))]

lemma stripAnsi_id {u : List Char} (hu : ∀ c ∈ u, c ≠ escCh) : stripAnsi u = u := by
  have hc := stripAnsi_copy u [] hu
  rw [List.append_nil] at hc
  have h0 : stripAnsi [] = ([] : List Char) := rfl
  rw [h0, List.append_nil] at hc
  exact hc

lemma stripAnsi_marker5 (c d : Char) (hc : c.isDigit = true) (hd : d.isDigit = true)
    (v : List Char) :
    stripAnsi (escCh :: '[' :: c :: d :: 'm' :: v) = stripAnsi v := by
  rw [stripAnsi.eq_def]
  simp [hc, hd]

lemma stripAnsi_marker4 (c : Char) (hc : c.isDigit = true) (v : List Char) :
    stripAnsi (escCh :: '[' :: c :: 'm' :: v) = stripAnsi v := by
  rcases v with _ | ⟨e, v⟩
  · rw [stripAnsi.eq_def]
    simp [hc]
    rfl
  · rw [stripAnsi.eq_def]
    simp [hc, (by decide : ('m' : Char).isDigit = false)]

lemma stripAnsi_green (v : List Char) : stripAnsi (colorGreen ++ v) = stripAnsi v := by
  have hshape : colorGreen ++ v = escCh :: '[' :: '3' :: '2' :: 'm' :: v := rfl
  rw [hshape, stripAnsi_marker5 '3' '2' (by decide) (by decide) v]

lemma stripAnsi_cyan (v : List Char) : stripAnsi (colorCyan ++ v) = stripAnsi v := by
  have hshape : colorCyan ++ v = escCh :: '[' :: '3' :: '6' :: 'm' :: v := rfl
  rw [hshape, stripAnsi_marker5 '3' '6' (by decide) (by decide) v]

lemma stripAnsi_magenta (v : List Char) :
    stripAnsi (colorMagenta ++ v) = stripAnsi v := by
  have hshape : colorMagenta ++ v = escCh :: '[' :: '3' :: '5' :: 'm' :: v := rfl
  rw [hshape, stripAnsi_marker5 '3' '5' (by decide) (by decide) v]

lemma stripAnsi_yellow (v : List Char) :
    stripAnsi (colorYellow ++ v) = stripAnsi v := by
  have hshape : colorYellow ++ v = escCh :: '[' :: '3' :: '3' :: 'm' :: v := rfl
  rw [hshape, stripAnsi_marker5 '3' '3' (by decide) (by decide) v]

lemma stripAnsi_reset_append (v : List Char) :
    stripAnsi (colorReset ++ v) = stripAnsi v := by
  have hshape : colorReset ++ v = escCh :: '[' :: '0' :: 'm' :: v := rfl
  rw [hshape, stripAnsi_marker4 '0' (by decide) v]

lemma stripAnsi_wrap (mark u : List Char)
    (hm : ∀ v, stripAnsi (mark ++ v) = stripAnsi v) (hu : ∀ c ∈ u, c ≠ escCh) :
    stripAnsi (mark ++ u ++ colorReset) = u := by
  rw [List.append_assoc, hm (u ++ colorReset), stripAnsi_copy u colorReset hu,
    show stripAnsi colorReset = [] from by decide, List.append_nil]

/-! ## The rendered fragments contain no escape character -/

lemma digitCh_isDigit {k : Nat} (h : k < 10) : (digitCh k).isDigit = true := by
  interval_cases k <;> decide

lemma natDigitsGo_chars : ∀ (fuel n : Nat) (acc : List Char),
    ∀ c ∈ natDigitsGo fuel n acc, c.isDigit = true ∨ c ∈ acc := by
  intro fuel
  induction fuel with
  | zero => intro n acc c hc; exact Or.inr hc
  | succ fuel ih =>
    intro n acc c hc
    simp only [natDigitsGo] at hc
    by_cases hn : n < 10
    · rw [if_pos hn] at hc
      rcases List.mem_cons.mp hc with h | h
      · exact Or.inl (by rw [h]; exact digitCh_isDigit hn)
      · exact Or.inr h
    · rw [if_neg hn] at hc
      rcases ih (n / 10) _ c hc with h | h
      · exact Or.inl h
      · rcases List.mem_cons.mp h with h | h
        · exact Or.inl (by rw [h]; exact digitCh_isDigit (Nat.mod_lt _ (by omega)))
        · exact Or.inr h

lemma natDigits_chars {n : Nat} : ∀ c ∈ natDigits n, c.isDigit = true := by
  intro c hc
  rcases natDigitsGo_chars (n + 1) n [] c hc with h | h
  · exact h
  · cases h

lemma padNum_chars {w n : Nat} : ∀ c ∈ padNum w n, c.isDigit = true := by
  intro c hc
  unfold padNum at hc
  rcases List.mem_append.mp hc with h | h
  · rw [List.eq_of_mem_replicate h]
    decide
  · exact natDigits_chars c h

lemma isDigit_ne_escCh {c : Char} (h : c.isDigit = true) : c ≠ escCh := by
  intro he
  rw [he] at h
  exact absurd h (by decide)

lemma monthName_chars {m : Nat} : ∀ c ∈ monthName m, c ≠ escCh := by
  unfold monthName
  by_cases h : m - 1 < 12
  · have h0 : 0 ≤ m - 1 := Nat.zero_le _
    set k := m - 1 with hk
    interval_cases k <;> decide
  · rw [List.getD_eq_default]
    · intro c hc
      cases hc
    · simpa using by omega

lemma fmtZoneNum_chars {off : Int} : ∀ c ∈ fmtZoneNum off, c ≠ escCh := by
  intro c hc
  unfold fmtZoneNum at hc
  rcases List.mem_cons.mp hc with h | h
  · rw [h]
    split <;> decide
  · rcases List.mem_append.mp h with h | h
    · exact isDigit_ne_escCh (padNum_chars c h)
    · rcases List.mem_cons.mp h with h | h
      · rw [h]
        decide
      · exact isDigit_ne_escCh (padNum_chars c h)

lemma zoneParen_chars {off : Int} : ∀ c ∈ zoneParen off, c ≠ escCh := by
  intro c hc
  unfold zoneParen at hc
  dsimp only at hc
  split at hc
  · exact (by decide :
      ∀ d ∈ ('(' :: '+' :: '0' :: '0' :: ':' :: '0' :: '0' :: [')'] : List Char),
        d ≠ escCh) c hc
  · rcases List.mem_cons.mp hc with h | h
    · rw [h]
      decide
    · rcases List.mem_append.mp h with h | h
      · exact fmtZoneNum_chars c h
      · rw [List.mem_singleton.mp h]
        decide

lemma fmtDate_chars {t : GoTime} : ∀ c ∈ fmtDate t, c ≠ escCh := by
  intro c hc
  unfold fmtDate at hc
  rcases List.mem_append.mp hc with h | h
  · rcases List.mem_append.mp h with h | h
    · exact isDigit_ne_escCh (padNum_chars c h)
    · rcases List.mem_cons.mp h with h | h
      · rw [h]
        decide
      · exact monthName_chars c h
  · rcases List.mem_cons.mp h with h | h
    · rw [h]
      decide
    · exact isDigit_ne_escCh (padNum_chars c h)

lemma fmtT12core_chars {t : GoTime} : ∀ c ∈ fmtT12core t, c ≠ escCh := by
  intro c hc
  unfold fmtT12core at hc
  rcases List.mem_append.mp hc with h | h
  · rcases List.mem_append.mp h with h | h
    · exact isDigit_ne_escCh (padNum_chars c h)
    · rcases List.mem_cons.mp h with h | h
      · rw [h]
        decide
      · exact isDigit_ne_escCh (padNum_chars c h)
  · revert h
    split <;> intro h
    · exact (by decide : ∀ d ∈ (['A', 'M'] : List Char), d ≠ escCh) c h
    · exact (by decide : ∀ d ∈ (['P', 'M'] : List Char), d ≠ escCh) c h

lemma fmtT24core_chars {t : GoTime} : ∀ c ∈ fmtT24core t, c ≠ escCh := by
  intro c hc
  unfold fmtT24core at hc
  rcases List.mem_append.mp hc with h | h
  · exact isDigit_ne_escCh (padNum_chars c h)
  · rcases List.mem_cons.mp h with h | h
    · rw [h]
      decide
    · exact isDigit_ne_escCh (padNum_chars c h)

/-! ## Renderer-level round trips -/

lemma stripAnsi_highlightAirport {a : Airport} (h : ∀ c ∈ a.name, c ≠ escCh) :
    stripAnsi (highlightAirport a) = plainAirport a := by
  unfold highlightAirport plainAirport
  exact stripAnsi_wrap colorGreen a.name stripAnsi_green h

lemma stripAnsi_highlightCity {a : Airport} (hn : ∀ c ∈ a.name, c ≠ escCh)
    (hm : ∀ c ∈ a.municipality, c ≠ escCh) :
    stripAnsi (highlightCity a) = plainCity a := by
  unfold highlightCity plainCity
  by_cases hcond : trimSpace a.municipality ≠ []
  · rw [if_pos hcond, if_pos hcond]
    exact stripAnsi_wrap colorCyan a.municipality stripAnsi_cyan hm
  · rw [if_neg hcond, if_neg hcond]
    unfold plainAirport
    exact stripAnsi_wrap colorGreen a.name stripAnsi_green hn

lemma stripAnsi_highlightDate (t : GoTime) :
    stripAnsi (highlightDateRender t) = plainDateRender t := by
  unfold highlightDateRender plainDateRender
  exact stripAnsi_wrap colorMagenta (fmtDate t) stripAnsi_magenta fmtDate_chars

lemma stripAnsi_highlightT12 (t : GoTime) :
    stripAnsi (highlightT12Render t) = plainT12Render t := by
  unfold highlightT12Render plainT12Render
  simp only [List.append_assoc, List.cons_append]
  rw [stripAnsi_cyan, stripAnsi_copy _ _ fmtT12core_chars, stripAnsi_reset_append,
    stripAnsi_cons_ne _ (by decide), stripAnsi_yellow,
    stripAnsi_copy _ _ zoneParen_chars,
    show stripAnsi colorReset = [] from by decide, List.append_nil]

lemma stripAnsi_highlightT24 (t : GoTime) :
    stripAnsi (highlightT24Render t) = plainT24Render t := by
  unfold highlightT24Render plainT24Render
  simp only [List.append_assoc, List.cons_append]
  rw [stripAnsi_cyan, stripAnsi_copy _ _ fmtT24core_chars, stripAnsi_reset_append,
    stripAnsi_cons_ne _ (by decide), stripAnsi_yellow,
    stripAnsi_copy _ _ zoneParen_chars,
    show stripAnsi colorReset = [] from by decide, List.append_nil]

/-! ## Mode agreement on token-free text -/

lemma dateScan_id_of_no_open (r : GoTime → List Char) :
    ∀ l : List Char, '(' ∉ l → dateScan r none l = l := by
  intro l
  induction l with
  | nil =>
    intro _
    rw [dateScan.eq_def]
  | cons c rest ih =>
    intro h
    rw [dateScan.eq_def]
    split <;> simp_all

lemma splitNl_line_chars : ∀ (x : List Char), ∀ w ∈ splitNl x, ∀ c ∈ w, c ∈ x := by
  intro x
  induction x with
  | nil =>
    intro w hw c hc
    rw [splitNl_nil, List.mem_singleton] at hw
    subst hw
    cases hc
  | cons a rest ih =>
    intro w hw c hc
    by_cases ha : a = '\n'
    · subst ha
      rw [splitNl_cons_nl] at hw
      rcases List.mem_cons.mp hw with hw | hw
      · subst hw
        cases hc
      · exact List.mem_cons_of_mem _ (ih w hw c hc)
    · rcases hsp : splitNl rest with _ | ⟨w0, ws0⟩
      · exact absurd hsp (splitNl_ne_nil rest)
      · rw [splitNl_cons_other ha hsp] at hw
        rcases List.mem_cons.mp hw with hw | hw
        · subst hw
          rcases List.mem_cons.mp hc with hc | hc
          · rw [hc]
            exact List.mem_cons_self _ _
          · exact List.mem_cons_of_mem _
              (ih w0 (by rw [hsp]; exact List.mem_cons_self _ _) c hc)
        · exact List.mem_cons_of_mem _
            (ih w (by rw [hsp]; exact List.mem_cons_of_mem _ hw) c hc)

lemma trimH_chars_sub {x : List Char} {c : Char}
    (h : c ∈ trimHorizontalWhitespace x) : c ∈ x ∨ c = ' ' ∨ c = '\n' := by
  unfold trimHorizontalWhitespace at h
  rcases joinSep_mem _ c h with ⟨u, hu, hcu⟩ | hs
  · obtain ⟨w, hwmem, hw⟩ := List.mem_map.mp hu
    rcases collapseLine_chars (show c ∈ collapseLine w by rw [hw]; exact hcu) with
      ⟨hcw, _⟩ | hsp
    · exact Or.inl (splitNl_line_chars x w hwmem c hcw)
    · exact Or.inr (Or.inl hsp)
  · exact Or.inr (Or.inr (List.mem_singleton.mp hs))

lemma escToNl_chars : ∀ (n : Nat) (l : List Char), l.length ≤ n →
    ∀ c ∈ escToNl l, c = '\n' ∨ c ∈ l := by
  intro n
  induction n with
  | zero =>
    intro l hl c hc
    rw [List.eq_nil_of_length_eq_zero (Nat.le_zero.mp hl), escToNl_nil] at hc
    cases hc
  | succ n ih =>
    intro l hl c hc
    rcases l with _ | ⟨a, l⟩
    · rw [escToNl_nil] at hc
      cases hc
    by_cases ha : a = '\\'
    · subst ha
      rcases l with _ | ⟨d, l⟩
      · have he : escToNl ['\\'] = ['\\'] := by decide
        rw [he, List.mem_singleton] at hc
        exact Or.inr (by rw [hc]; exact List.mem_cons_self _ _)
      · by_cases hd : isRVF d
        · rw [escToNl_esc _ hd] at hc
          rcases List.mem_cons.mp hc with h | h
          · exact Or.inl h
          · rcases ih l (by simp at hl ⊢; omega) c h with h | h
            · exact Or.inl h
            · exact Or.inr (List.mem_cons_of_mem _ (List.mem_cons_of_mem _ h))
        · rw [escToNl_esc_not _ (by simpa using hd)] at hc
          rcases List.mem_cons.mp hc with h | h
          · exact Or.inr (by rw [h]; exact List.mem_cons_self _ _)
          · rcases ih (d :: l) (by simp at hl ⊢; omega) c h with h | h
            · exact Or.inl h
            · exact Or.inr (List.mem_cons_of_mem _ h)
    · rw [escToNl_cons_other _ ha] at hc
      rcases List.mem_cons.mp hc with h | h
      · exact Or.inr (by rw [h]; exact List.mem_cons_self _ _)
      · rcases ih l (by simp at hl ⊢; omega) c h with h | h
        · exact Or.inl h
        · exact Or.inr (List.mem_cons_of_mem _ h)

lemma ctlRunsToNl_chars : ∀ (l : List Char) (b : Bool) (c : Char),
    c ∈ ctlRunsToNl b l → c = '\n' ∨ c ∈ l := by
  intro l
  induction l with
  | nil =>
    intro b c hc
    rw [ctlRunsToNl_nil] at hc
    cases hc
  | cons a l ih =>
    intro b c hc
    by_cases hctl : isCtlVert a
    · rcases b with _ | _
      · rw [ctlRunsToNl_cons_ctl_false _ hctl] at hc
        rcases List.mem_cons.mp hc with h | h
        · exact Or.inl h
        · rcases ih true c h with h | h
          · exact Or.inl h
          · exact Or.inr (List.mem_cons_of_mem _ h)
      · rw [ctlRunsToNl_cons_ctl_true _ hctl] at hc
        rcases ih true c hc with h | h
        · exact Or.inl h
        · exact Or.inr (List.mem_cons_of_mem _ h)
    · rw [ctlRunsToNl_cons_notctl b _ (by simpa using hctl)] at hc
      rcases List.mem_cons.mp hc with h | h
      · exact Or.inr (by rw [h]; exact List.mem_cons_self _ _)
      · rcases ih false c h with h | h
        · exact Or.inl h
        · exact Or.inr (List.mem_cons_of_mem _ h)

lemma normalizeWhitespace_chars {x : List Char} {c : Char}
    (h : c ∈ normalizeWhitespace x) : c ∈ x ∨ c = ' ' ∨ c = '\n' := by
  unfold normalizeWhitespace trimVerticalWhitespace at h
  rcases collapseNl_chars _ 0 c h with h | h
  · exact Or.inr (Or.inr h)
  rcases ctlRunsToNl_chars _ false c h with h | h
  · exact Or.inr (Or.inr h)
  rcases escToNl_chars (trimHorizontalWhitespace x).length _ (le_refl _) c h with h | h
  · exact Or.inr (Or.inr h)
  exact trimH_chars_sub h

/-- On text containing no `#`, no `(` and no escape character, every
scanner pass is the identity in both modes, and marker stripping is the
identity on the normalized result. -/
lemma modes_agree_inert : ∀ (m : AirportMap) (x : List Char),
    '#' ∉ x → '(' ∉ x → escCh ∉ x →
    stripAnsi (highlightProcessContent m x) = plainProcessContent m x := by
  intro m x hh ho he
  unfold highlightProcessContent plainProcessContent processAirportCodes
    plainProcessAirportCodes processDatesAndTimes plainProcessDatesAndTimes
  rw [iataScan_id_of_no_hash m highlightAirport highlightCity x hh,
    icaoScan_id_of_no_hash m highlightAirport highlightCity x hh,
    dateScan_id_of_no_open highlightDateRender x ho,
    t12Scan_id_of_no_open highlightT12Render x ho,
    t24Scan_id_of_no_open highlightT24Render x ho,
    iataScan_id_of_no_hash m plainAirport plainCity x hh,
    icaoScan_id_of_no_hash m plainAirport plainCity x hh,
    dateScan_id_of_no_open plainDateRender x ho,
    t12Scan_id_of_no_open plainT12Render x ho,
    t24Scan_id_of_no_open plainT24Render x ho]
  apply stripAnsi_id
  intro c hc
  rcases normalizeWhitespace_chars hc with h | h | h
  · intro heq
    rw [heq] at h
    exact he h
  · rw [h]
    decide
  · rw [h]
    decide

end TextFormatter

namespace TextFormatter

/-! ## Claims -/

/-- C10: airport-code token matching applies no boundary checks: in
`#ABCD` with `ABC` in the directory, the IATA pass matches `#ABC`,
replaces it with the resolved text and leaves the trailing `D` in place;
likewise the ICAO pass in `##ABCDE` matches `##ABCD` and leaves the
trailing `E`. -/
theorem c10_no_boundary_checks :
    ∀ (m : AirportMap) (ap : Airport),
      (lookupAirport m ['A', 'B', 'C'] = some ap →
        iataScan m plainAirport plainCity ['#', 'A', 'B', 'C', 'D'] =
          plainAirport ap ++ ['D']) ∧
      (lookupAirport m ['A', 'B', 'C', 'D'] = some ap →
        icaoScan m plainAirport plainCity ['#', '#', 'A', 'B', 'C', 'D', 'E'] =
          plainAirport ap ++ ['E']) := by
  intro m ap
  constructor
  · intro h
    have e1 := iataScan_hash m plainAirport plainCity (a := 'A') (b := 'B') (c := 'C')
      ['D'] (by decide) (by decide) (by decide)
    rw [e1, h, iataScan_cons_other m plainAirport plainCity [] (by decide) (by decide),
      iataScan_nil]
  · intro h
    have e1 := icaoScan_hash2 m plainAirport plainCity (a := 'A') (b := 'B') (c := 'C')
      (d := 'D') ['E'] (by decide) (by decide) (by decide) (by decide)
    rw [e1, h, icaoScan_cons_other m plainAirport plainCity [] (by decide) (by decide),
      icaoScan_nil]

/-- C10 witness: concrete instance with `ABC ↦ apABC` and `ABCD ↦ apABCD`. -/
theorem c10_witness :
    iataScan mapABC plainAirport plainCity ['#', 'A', 'B', 'C', 'D'] =
      plainAirport apABC ++ ['D'] ∧
    icaoScan mapABC plainAirport plainCity ['#', '#', 'A', 'B', 'C', 'D', 'E'] =
      plainAirport apABCD ++ ['E'] :=
  ⟨(c10_no_boundary_checks mapABC apABC).1 (by decide),
   (c10_no_boundary_checks mapABC apABCD).2 (by decide)⟩

/-- C2 counterexample: with `ABC ↦ apABC` (name `Nice`) and
`ABCD ↦ apABCD` (name `Quad`) in the directory, the input `##ABCD` is NOT
resolved as an ICAO token: the IATA pass consumes `#ABC` first, leaving
`#NiceD`, not `Quad`. -/
theorem c2_counterexample :
    plainProcessAirportCodes mapABC ['#', '#', 'A', 'B', 'C', 'D'] =
      '#' :: "Nice".data ++ ['D'] ∧
    plainProcessAirportCodes mapABC ['#', '#', 'A', 'B', 'C', 'D'] ≠
      plainAirport apABCD := by
  decide

/-- C2 amended: an occurrence of optional `*`, `##`, then four uppercase
letters is resolved as an ICAO token provided the three letters after the
second `#` do not form a code present in the directory (when they do, the
IATA pass fires inside the ICAO token first, as the counterexample
shows). -/
theorem c2_pass_order_amended :
    ∀ (m : AirportMap) (a b c d : Char),
      isUpperAZ a → isUpperAZ b → isUpperAZ c → isUpperAZ d →
      lookupAirport m [a, b, c] = none →
      plainProcessAirportCodes m ['#', '#', a, b, c, d] =
        (match lookupAirport m [a, b, c, d] with
         | some ap => plainAirport ap
         | none => ['#', '#', a, b, c, d]) ∧
      plainProcessAirportCodes m ['*', '#', '#', a, b, c, d] =
        (match lookupAirport m [a, b, c, d] with
         | some ap => plainCity ap
         | none => ['*', '#', '#', a, b, c, d]) := by
  intro m a b c d ha hb hc hd hnone
  have hiata : iataScan m plainAirport plainCity ('#' :: '#' :: a :: b :: c :: d :: []) =
      '#' :: '#' :: a :: b :: c :: d :: [] := by
    rw [iataScan_hash_notup m plainAirport plainCity _ (by simp [(by decide : isUpperAZ '#' = false)]),
      iataScan_hash m plainAirport plainCity _ ha hb hc, hnone,
      iataScan_cons_other m plainAirport plainCity [] (ne_of_upper hd (by decide))
        (ne_of_upper hd (by decide)), iataScan_nil]
    rfl
  constructor
  · show icaoScan m plainAirport plainCity (iataScan m plainAirport plainCity _) = _
    rw [hiata, icaoScan_hash2 m plainAirport plainCity [] ha hb hc hd, icaoScan_nil]
    cases lookupAirport m [a, b, c, d] <;> simp
  · show icaoScan m plainAirport plainCity (iataScan m plainAirport plainCity _) = _
    have hstar : iataScan m plainAirport plainCity ('*' :: '#' :: '#' :: a :: b :: c :: d :: []) =
        '*' :: '#' :: '#' :: a :: b :: c :: d :: [] := by
      rw [iataScan_star_notup m plainAirport plainCity _
        (by simp [(by decide : isUpperAZ '#' = false)]), hiata]
    rw [hstar, icaoScan_star_hash2 m plainAirport plainCity [] ha hb hc hd, icaoScan_nil]
    cases lookupAirport m [a, b, c, d] <;> simp

/-- C2 amended witness: concrete instance where `ABZ` is not in the
directory and `ABZD` is absent too, so `##ABZD` passes through intact. -/
theorem c2_amended_witness :
    plainProcessAirportCodes mapABC ['#', '#', 'A', 'B', 'Z', 'D'] =
      ['#', '#', 'A', 'B', 'Z', 'D'] := by
  have h := (c2_pass_order_amended mapABC 'A' 'B' 'Z' 'D' (by decide) (by decide)
    (by decide) (by decide) (by decide)).1
  rw [h]
  decide

/-- C9: a timestamp accepted by the UTC (`Z`) layout renders its zone as
`(+00:00)` in both the 12-hour and 24-hour replacements, and concretely
`T24(2025-03-16T06:30Z)` becomes `06:30 (+00:00)` in the plain
transform. -/
theorem c9_utc_zone_normalization :
    (∀ (ts : List Char) (t : GoTime), parseZ ts = some t →
      plainT12Render t = fmtT12core t ++ ' ' :: "(+00:00)".data ∧
      plainT24Render t = fmtT24core t ++ ' ' :: "(+00:00)".data) ∧
    plainProcessContent [] "T24(2025-03-16T06:30Z)".data = "06:30 (+00:00)".data ∧
    plainProcessContent [] "T12(2025-03-16T06:30Z)".data = "06:30AM (+00:00)".data := by
  refine ⟨?_, by decide, by decide⟩
  intro ts t h
  have h0 : t.offMin = 0 := parseZ_offMin h
  have hz : zoneParen (0 : Int) = "(+00:00)".data := by decide
  constructor
  · rw [plainT12Render, h0, hz]
  · rw [plainT24Render, h0, hz]

/-- C3 counterexample: the full transformation does not retain an
unresolved token's literal text.  With `ABD` absent from the (empty)
directory, the IATA pass re-emits `#ABD` literally, but the date pass
then matches `D(2025-03-15T14:30Z)` — using the re-emitted token's
trailing `D` — and rewrites it, so the plain output is `#AB15 Mar 2025`
and the literal `#ABD` appears nowhere in it. -/
theorem c3_counterexample :
    plainProcessContent [] "#ABD(2025-03-15T14:30Z)".data = "#AB15 Mar 2025".data ∧
    ¬ "#ABD".data <:+: plainProcessContent [] "#ABD(2025-03-15T14:30Z)".data := by
  decide

/-- C3 amended: fail-open holds per pass, and silently — a matched
airport-code token whose code is absent from the directory, and a matched
date/time token whose inner text parses under neither layout, are
re-emitted by that pass as their original literal text, in either
rendering mode (the renderers `rn`, `rc`, `r` are arbitrary), with
scanning continuing after the match; each transformation is a total
function, so it cannot raise.  The re-emitted literal is not protected
from the later passes, which can match inside or across it (see the
counterexample), so the full output need not retain it. -/
theorem c3_fail_open_amended :
    (∀ (m : AirportMap) (rn rc : Airport → List Char) (a b c : Char) (rest : List Char),
      isUpperAZ a → isUpperAZ b → isUpperAZ c →
      lookupAirport m [a, b, c] = none →
      iataScan m rn rc ('#' :: a :: b :: c :: rest) =
        '#' :: a :: b :: c :: iataScan m rn rc rest ∧
      iataScan m rn rc ('*' :: '#' :: a :: b :: c :: rest) =
        '*' :: '#' :: a :: b :: c :: iataScan m rn rc rest) ∧
    (∀ (m : AirportMap) (rn rc : Airport → List Char) (a b c d : Char) (rest : List Char),
      isUpperAZ a → isUpperAZ b → isUpperAZ c → isUpperAZ d →
      lookupAirport m [a, b, c, d] = none →
      icaoScan m rn rc ('#' :: '#' :: a :: b :: c :: d :: rest) =
        '#' :: '#' :: a :: b :: c :: d :: icaoScan m rn rc rest ∧
      icaoScan m rn rc ('*' :: '#' :: '#' :: a :: b :: c :: d :: rest) =
        '*' :: '#' :: '#' :: a :: b :: c :: d :: icaoScan m rn rc rest) ∧
    (∀ (r : GoTime → List Char) (run rest : List Char),
      (∀ c ∈ run, tsChar c) → 16 ≤ run.length → parseGoTime run = none →
      dateScan r none ('D' :: '(' :: (run ++ ')' :: rest)) =
        'D' :: '(' :: run ++ ')' :: dateScan r none rest ∧
      t12Scan r none ('T' :: '1' :: '2' :: '(' :: (run ++ ')' :: rest)) =
        'T' :: '1' :: '2' :: '(' :: run ++ ')' :: t12Scan r none rest ∧
      t24Scan r none ('T' :: '2' :: '4' :: '(' :: (run ++ ')' :: rest)) =
        'T' :: '2' :: '4' :: '(' :: run ++ ')' :: t24Scan r none rest) := by
  refine ⟨?_, ?_, ?_⟩
  · intro m rn rc a b c rest ha hb hc hnone
    constructor
    · rw [iataScan_hash m rn rc rest ha hb hc, hnone]
      rfl
    · rw [iataScan_star m rn rc rest ha hb hc, hnone]
      rfl
  · intro m rn rc a b c d rest ha hb hc hd hnone
    constructor
    · rw [icaoScan_hash2 m rn rc rest ha hb hc hd, hnone]
      rfl
    · rw [icaoScan_star_hash2 m rn rc rest ha hb hc hd, hnone]
      rfl
  · intro r run rest hts h16 hnone
    refine ⟨?_, ?_, ?_⟩
    · rw [dateScan_token r run rest hts h16, hnone]
      simp
    · rw [t12Scan_token r run rest hts h16, hnone]
      simp
    · rw [t24Scan_token r run rest hts h16, hnone]
      simp

/-- C3 amended witness: the empty directory misses `ABC`, and the
in-range but unparsable run `9999-99-99T99:99Z` fails both layouts. -/
theorem c3_witness :
    iataScan [] plainAirport plainCity ('#' :: 'A' :: 'B' :: 'C' :: []) =
      '#' :: 'A' :: 'B' :: 'C' :: iataScan [] plainAirport plainCity [] ∧
    dateScan plainDateRender none ('D' :: '(' :: ("9999-99-99T99:99Z".data ++ ')' :: [])) =
      'D' :: '(' :: "9999-99-99T99:99Z".data ++ ')' :: dateScan plainDateRender none [] :=
  ⟨(c3_fail_open_amended.1 [] plainAirport plainCity 'A' 'B' 'C' []
      (by decide) (by decide) (by decide) (by decide)).1,
   (c3_fail_open_amended.2.2 plainDateRender "9999-99-99T99:99Z".data []
      (by decide) (by decide) (by decide)).1⟩

/-- C8: Build fails exactly under the specified conditions: a
`SchemaError` (missing-column error) occurs iff one of the six required
columns is absent after case folding and trimming; a `RecordError`
(non-schema error) occurs iff the columns are all present and some
non-empty row has a wrong field count, a blank name, or two blank codes;
and construction succeeds iff the columns are present and no such row
exists (zero-field rows are skipped without error, encoded in
`specBadRow`). -/
theorem c8_build_failure_exactly :
    ∀ (header : List (List Char)) (rows : List (List (List Char))),
      ((∃ col, (loadAirportData header rows).1 = .error (.missingColumn col)) ↔
        specMissingColumn header = true) ∧
      ((∃ e, (loadAirportData header rows).1 = .error e ∧ e.isSchema = false) ↔
        (specMissingColumn header = false ∧ ∃ r ∈ rows, specBadRow header r = true)) ∧
      ((loadAirportData header rows).1 = .ok () ↔
        (specMissingColumn header = false ∧ ∀ r ∈ rows, specBadRow header r = false)) := by
  intro header rows
  unfold loadAirportData
  cases hmc : missingColumn? (columnMapOf header) with
  | some col =>
    have hspec : specMissingColumn header = true := by
      cases hb : specMissingColumn header
      · rw [missingColumn?_eq_none_iff.mpr hb] at hmc
        cases hmc
      · rfl
    dsimp only
    rw [hmc]
    dsimp only
    refine ⟨⟨fun _ => hspec, fun _ => ⟨col, rfl⟩⟩, ?_, ?_⟩
    · constructor
      · rintro ⟨e, he, hkind⟩
        injection he with he
        rw [← he] at hkind
        cases hkind
      · rintro ⟨hfalse, _⟩
        rw [hspec] at hfalse
        cases hfalse
    · constructor
      · intro h
        cases h
      · rintro ⟨hfalse, _⟩
        rw [hspec] at hfalse
        cases hfalse
  | none =>
    have hspec : specMissingColumn header = false := missingColumn?_eq_none_iff.mp hmc
    have hok := @loadRows_ok_iff header rows []
    dsimp only
    rw [hmc]
    dsimp only
    rcases hlr : loadRows (columnMapOf header) header.length [] rows with ⟨res, mstate⟩
    rw [hlr] at hok
    dsimp only at hok ⊢
    refine ⟨?_, ?_, ?_⟩
    · constructor
      · rintro ⟨col2, hcol⟩
        have hkind := @loadRows_error_kind (columnMapOf header) header.length
          rows [] (LoadErr.missingColumn col2) (by rw [hlr]; exact hcol)
        cases hkind
      · intro hs
        rw [hspec] at hs
        cases hs
    · constructor
      · rintro ⟨e, he, _⟩
        subst he
        refine ⟨hspec, ?_⟩
        by_contra hno
        push_neg at hno
        have hgood : ∀ r ∈ rows, specBadRow header r = false := by
          intro r hr
          have hne := hno r hr
          cases hb : specBadRow header r
          · rfl
          · exact absurd hb hne
        exact Except.noConfusion (hok.mpr hgood)
      · rintro ⟨_, r, hr, hbad⟩
        cases res with
        | ok u =>
          cases u
          have := hok.mp rfl r hr
          rw [hbad] at this
          cases this
        | error e =>
          refine ⟨e, rfl, loadRows_error_kind (by rw [hlr])⟩
    · constructor
      · intro h
        exact ⟨hspec, hok.mp h⟩
      · rintro ⟨_, hall⟩
        exact hok.mpr hall

/-- C8 witness: the success characterization applied to a well-formed
header and one good row. -/
theorem c8_witness :
    (loadAirportData sampleHeader [sampleRow1]).1 = .ok () :=
  (c8_build_failure_exactly sampleHeader [sampleRow1]).2.2.mpr
    ⟨by decide, by decide⟩

/-- C6 counterexample: Build fails with a `RecordError` on the second row,
yet the global `airportMap` retains both entries inserted for the first
row — partial directory state populated from earlier rows survives the
failure. -/
theorem c6_counterexample :
    (loadAirportData sampleHeader [sampleRow1, sampleRowBad]).1 = .error .emptyName ∧
    (loadAirportData sampleHeader [sampleRow1, sampleRowBad]).2 =
      some [("IIII".data, ⟨"A1".data, "c".data, "m".data, "IIII".data, "AAA".data, "co".data⟩),
            ("AAA".data, ⟨"A1".data, "c".data, "m".data, "IIII".data, "AAA".data, "co".data⟩)] ∧
    (loadAirportData sampleHeader [sampleRow1, sampleRowBad]).2 ≠ some [] := by
  decide

/-- C6 amended: construction aborts at the first offending row and the
caller receives only an error (a schema failure happens before the global
map is even created); however, on a record failure the package-global
`airportMap` retains exactly the entries inserted for the rows preceding
the offending row — that state survives. -/
theorem c6_abort_state_amended :
    ∀ (header : List (List Char)) (rows : List (List (List Char))),
      (∀ col, (loadAirportData header rows).1 = .error (.missingColumn col) →
        (loadAirportData header rows).2 = none) ∧
      (∀ e, e.isSchema = false → (loadAirportData header rows).1 = .error e →
        ∃ pre r post m1,
          rows = pre ++ r :: post ∧
          foldRowsOk (columnMapOf header) header.length [] pre = some m1 ∧
          processRow (columnMapOf header) header.length m1 r = .error e ∧
          (loadAirportData header rows).2 = some m1) := by
  intro header rows
  unfold loadAirportData
  cases hmc : missingColumn? (columnMapOf header) with
  | some col =>
    dsimp only
    rw [hmc]
    dsimp only
    refine ⟨fun _ _ => rfl, ?_⟩
    intro e hkind he
    injection he with he
    rw [← he] at hkind
    cases hkind
  | none =>
    dsimp only
    rw [hmc]
    dsimp only
    rcases hlr : loadRows (columnMapOf header) header.length [] rows with ⟨res, mstate⟩
    dsimp only
    refine ⟨?_, ?_⟩
    · intro col2 hcol
      have hkind := loadRows_error_kind (e := LoadErr.missingColumn col2)
        (by rw [hlr]; exact hcol)
      cases hkind
    · intro e _ he
      subst he
      obtain ⟨pre, r, post, m1, hsplit, hfold, herr, hstate⟩ :=
        loadRows_error_split rows [] e (by rw [hlr])
      rw [hlr] at hstate
      dsimp only at hstate
      exact ⟨pre, r, post, m1, hsplit, hfold, herr, by rw [hstate]⟩

/-- C6 amended witness: the record-failure characterization at the
concrete two-row input. -/
theorem c6_witness :
    ∃ pre r post m1,
      ([sampleRow1, sampleRowBad] : List (List (List Char))) = pre ++ r :: post ∧
      foldRowsOk (columnMapOf sampleHeader) sampleHeader.length [] pre = some m1 ∧
      processRow (columnMapOf sampleHeader) sampleHeader.length m1 r = .error .emptyName ∧
      (loadAirportData sampleHeader [sampleRow1, sampleRowBad]).2 = some m1 :=
  (c6_abort_state_amended sampleHeader [sampleRow1, sampleRowBad]).2
    .emptyName (by decide) (by decide)

/-- C7 counterexample: Build succeeds on two rows where the second row
reuses the first row's IATA code `AAA`; the first row is well-formed with
both codes non-empty, yet after Build, Lookup on `AAA` and Lookup on
`IIII` return different records. -/
theorem c7_counterexample :
    (loadAirportData sampleHeader [sampleRow1, sampleRow2]).1 = .ok () ∧
    fieldAt (columnMapOf sampleHeader) sampleRow1 "iata_code".data = "AAA".data ∧
    fieldAt (columnMapOf sampleHeader) sampleRow1 "icao_code".data = "IIII".data ∧
    lookupAirport ((loadAirportData sampleHeader [sampleRow1, sampleRow2]).2.getD [])
        "AAA".data ≠
      lookupAirport ((loadAirportData sampleHeader [sampleRow1, sampleRow2]).2.getD [])
        "IIII".data := by
  decide

/-- C7 amended: after a successful Build, a row with both codes non-empty
is aliased — Lookup on its IATA code and on its ICAO code return the same
record — provided no later row carries either of those codes in either
code field (a later duplicate overwrites one key, as the counterexample
shows). -/
theorem c7_aliasing_amended :
    ∀ (header : List (List Char)) (pre post : List (List (List Char)))
      (r : List (List Char)),
      (loadAirportData header (pre ++ r :: post)).1 = .ok () →
      fieldAt (columnMapOf header) r "iata_code".data ≠ [] →
      fieldAt (columnMapOf header) r "icao_code".data ≠ [] →
      (∀ r' ∈ post,
        fieldAt (columnMapOf header) r' "iata_code".data ≠
          fieldAt (columnMapOf header) r "iata_code".data ∧
        fieldAt (columnMapOf header) r' "icao_code".data ≠
          fieldAt (columnMapOf header) r "iata_code".data ∧
        fieldAt (columnMapOf header) r' "iata_code".data ≠
          fieldAt (columnMapOf header) r "icao_code".data ∧
        fieldAt (columnMapOf header) r' "icao_code".data ≠
          fieldAt (columnMapOf header) r "icao_code".data) →
      ∃ (mf : AirportMap) (ap : Airport),
        (loadAirportData header (pre ++ r :: post)).2 = some mf ∧
        lookupAirport mf (fieldAt (columnMapOf header) r "iata_code".data) = some ap ∧
        lookupAirport mf (fieldAt (columnMapOf header) r "icao_code".data) = some ap := by
  intro header pre post r hok1 hia hic hpost
  unfold loadAirportData at hok1 ⊢
  dsimp only at hok1 ⊢
  cases hmc : missingColumn? (columnMapOf header) with
  | some col =>
    simp [hmc] at hok1
  | none =>
    dsimp only at hok1 ⊢
    rcases hlr : loadRows (columnMapOf header) header.length [] (pre ++ r :: post)
      with ⟨res, mstate⟩
    rw [hmc] at hok1
    dsimp only at hok1 ⊢
    have hallgood : ∀ r' ∈ pre ++ r :: post, specBadRow header r' = false :=
      (loadRows_ok_iff _ []).mp hok1
    have hpreok : (loadRows (columnMapOf header) header.length [] pre).1 = .ok () :=
      (loadRows_ok_iff _ []).mpr
        (fun r' hr' => hallgood r' (List.mem_append_left _ hr'))
    have hfold := loadRows_ok_fold pre [] hpreok
    have happ := loadRows_append_of_fold pre (r :: post) []
      ((loadRows (columnMapOf header) header.length [] pre).2) hfold
    obtain ⟨m2, hm2⟩ : ∃ m2, processRow (columnMapOf header) header.length
        ((loadRows (columnMapOf header) header.length [] pre).2) r = .ok m2 :=
      processRow_ok_iff.mpr (hallgood r (List.mem_append_right _ (List.mem_cons_self r post)))
    obtain ⟨ap, hap⟩ := processRow_ok_insert hm2 hia hic
    subst hap
    have htail1 : loadRows (columnMapOf header) header.length
        ((loadRows (columnMapOf header) header.length [] pre).2) (r :: post) =
        (res, mstate) := by
      rw [← happ]
      exact hlr
    rw [loadRows, hm2] at htail1
    dsimp only at htail1
    rw [hlr] at hok1
    dsimp only at hok1
    have htailok : (loadRows (columnMapOf header) header.length
        ((fieldAt (columnMapOf header) r "icao_code".data, ap) ::
         (fieldAt (columnMapOf header) r "iata_code".data, ap) ::
         (loadRows (columnMapOf header) header.length [] pre).2) post).1 = .ok () := by
      rw [htail1]
      exact hok1
    have hpres1 := loadRows_ok_lookup_preserve
      (k := fieldAt (columnMapOf header) r "iata_code".data) post _ htailok
      (fun r' hr' => ⟨(hpost r' hr').1.symm, (hpost r' hr').2.1.symm⟩)
    have hpres2 := loadRows_ok_lookup_preserve
      (k := fieldAt (columnMapOf header) r "icao_code".data) post _ htailok
      (fun r' hr' => ⟨(hpost r' hr').2.2.1.symm, (hpost r' hr').2.2.2.symm⟩)
    have hms : mstate = (loadRows (columnMapOf header) header.length
        ((fieldAt (columnMapOf header) r "icao_code".data,
            ap) :: (fieldAt (columnMapOf header) r "iata_code".data, ap) ::
          (loadRows (columnMapOf header) header.length [] pre).2) post).2 := by
      rw [htail1]
    refine ⟨mstate, ap, rfl, ?_, ?_⟩
    · rw [hms, hpres1]
      by_cases hee : fieldAt (columnMapOf header) r "iata_code".data =
          fieldAt (columnMapOf header) r "icao_code".data
      · rw [hee, lookupAirport_cons_self]
      · rw [lookupAirport_cons_ne hee, lookupAirport_cons_self]
    · rw [hms, hpres2, lookupAirport_cons_self]

/-- C7 amended witness: a single well-formed row with distinct codes. -/
theorem c7_witness :
    ∃ (mf : AirportMap) (ap : Airport),
      (loadAirportData sampleHeader ([] ++ sampleRow1 :: [])).2 = some mf ∧
      lookupAirport mf (fieldAt (columnMapOf sampleHeader) sampleRow1 "iata_code".data) =
        some ap ∧
      lookupAirport mf (fieldAt (columnMapOf sampleHeader) sampleRow1 "icao_code".data) =
        some ap :=
  c7_aliasing_amended sampleHeader [] [] sampleRow1 (by decide) (by decide) (by decide)
    (by intro r' hr'; cases hr')

/-- C9 witness: the general part applied at the concrete UTC timestamp
`2025-03-16T06:30Z`. -/
theorem c9_witness :
    plainT24Render ⟨2025, 3, 16, 6, 30, 0⟩ =
      fmtT24core ⟨2025, 3, 16, 6, 30, 0⟩ ++ ' ' :: "(+00:00)".data :=
  (c9_utc_zone_normalization.1 "2025-03-16T06:30Z".data ⟨2025, 3, 16, 6, 30, 0⟩
    (by decide)).2

/-- C4: the vertical-collapse step behaves as specified on every input:
each literal two-character escape sequence backslash-`r`/`v`/`f` preceded
by escape-free text becomes one newline; each maximal run of actual
CR/VT/FF control characters becomes a single newline; every run of 3 or
more consecutive newlines collapses to exactly 2 (regardless of
surrounding text); and in the concrete scenario, the 4 consecutive blank
lines of `P\n\n\n\n\nQ` become exactly 1. -/
theorem c4_vertical_collapse :
    (∀ (u v : List Char) (c : Char), hasEsc u = false → isRVF c →
      escToNl (u ++ '\\' :: c :: v) = u ++ '\n' :: escToNl v) ∧
    (∀ (u r v : List Char), (∀ d ∈ u, isCtlVert d = false) → r ≠ [] →
      (∀ d ∈ r, isCtlVert d = true) →
      (∀ d, v.head? = some d → isCtlVert d = false) →
      ctlRunsToNl false (u ++ r ++ v) = u ++ '\n' :: ctlRunsToNl false v) ∧
    (∀ (u v : List Char) (n k : Nat), 3 ≤ n →
      collapseNl k (u ++ List.replicate n '\n' ++ v) =
        collapseNl k (u ++ '\n' :: '\n' :: v)) ∧
    trimVerticalWhitespace ('P' :: (List.replicate 5 '\n' ++ ['Q'])) =
      ['P', '\n', '\n', 'Q'] :=
  ⟨escToNl_replace, ctlRunsToNl_replace, collapseNl_replace_run, by decide⟩

/-- C4 witness: the three replacement equations at concrete inputs
(escape `\r` inside `a\rb`, a CR-VT control run between `a` and `b`, a run
of 4 newlines), and the concrete blank-line scenario. -/
theorem c4_witness :
    escToNl ('a' :: '\\' :: 'r' :: ['b']) = 'a' :: '\n' :: escToNl ['b'] ∧
    ctlRunsToNl false (['a'] ++ [Char.ofNat 13, Char.ofNat 11] ++ ['b']) =
      ['a'] ++ '\n' :: ctlRunsToNl false ['b'] ∧
    collapseNl 0 (['a'] ++ List.replicate 4 '\n' ++ ['b']) =
      collapseNl 0 (['a'] ++ '\n' :: '\n' :: ['b']) ∧
    trimVerticalWhitespace ('P' :: (List.replicate 5 '\n' ++ ['Q'])) =
      ['P', '\n', '\n', 'Q'] :=
  ⟨c4_vertical_collapse.1 ['a'] ['b'] 'r' (by decide) (by decide),
   c4_vertical_collapse.2.1 ['a'] [Char.ofNat 13, Char.ofNat 11] ['b']
     (by decide) (by decide) (by decide)
     (by intro d hd; injection hd with hd; subst hd; decide),
   c4_vertical_collapse.2.2.1 ['a'] ['b'] 4 0 (by decide),
   c4_vertical_collapse.2.2.2⟩

/-- C5 counterexample: whitespace normalization is not idempotent. On
`a \r b` (with a literal backslash-r escape), the horizontal pass runs
first and keeps the spaces around the escape; the vertical pass then
turns the escape into a newline, leaving `a SPACE NEWLINE SPACE b` — and
a second application of normalization trims those now-horizontal spaces
away, giving `a NEWLINE b` instead. -/
theorem c5_counterexample :
    normalizeWhitespace (normalizeWhitespace "a \\r b".data) ≠
      normalizeWhitespace "a \\r b".data := by decide

/-- C5 amended: whitespace normalization (horizontal collapse, then
vertical collapse) is idempotent on every input that contains no literal
two-character escape sequence `\r`/`\v`/`\f`; only the escape
replacement — which runs after the horizontal pass, creating newlines the
horizontal pass never saw — breaks idempotence. -/
theorem c5_idempotence_amended (x : List Char) (h : hasEsc x = false) :
    normalizeWhitespace (normalizeWhitespace x) = normalizeWhitespace x :=
  normalize_idem_of_no_esc x h

/-- C5 witness: the amended idempotence at a concrete escape-free input
exercising tabs, space runs and a newline run. -/
theorem c5_witness :
    hasEsc "  a \t b \n\n\n\n c  ".data = false ∧
    normalizeWhitespace (normalizeWhitespace "  a \t b \n\n\n\n c  ".data) =
      normalizeWhitespace "  a \t b \n\n\n\n c  ".data :=
  ⟨by decide, c5_idempotence_amended _ (by decide)⟩

/-- C1 counterexample: the two modes do not produce the same underlying
text.  With a directory mapping `ABC` to an airport named `D`, the input
`#ABC(2025-03-15T14:30Z)` resolves in plain mode to
`D(2025-03-15T14:30Z)`, which the later date pass rewrites to
`15 Mar 2025`; in annotated mode the reset marker inserted after the
green name sits between `D` and `(`, the date pass finds no `D(`, and
stripping markers leaves `D(2025-03-15T14:30Z)`. -/
theorem c1_counterexample :
    stripAnsi (highlightProcessContent mapNameD "#ABC(2025-03-15T14:30Z)".data) ≠
      plainProcessContent mapNameD "#ABC(2025-03-15T14:30Z)".data := by decide

/-- C1 amended: stripping style markers from annotated output yields the
plain output (a) for every directory and every input free of `#`, `(`
and the escape character — on such text all five passes are the identity
in both modes and stripping is the identity on the normalized result —
and (b) fragment-wise for every replacement the passes can make: each
highlighted airport-name/city fragment (for escape-free directory
fields) and each highlighted date, 12-hour and 24-hour time fragment
strips to exactly the corresponding plain fragment.  Across passes the
inserted markers can break token adjacency, so whole-output equality
fails in general (see the counterexample). -/
theorem c1_roundtrip_amended :
    (∀ (m : AirportMap) (x : List Char), '#' ∉ x → '(' ∉ x → escCh ∉ x →
      stripAnsi (highlightProcessContent m x) = plainProcessContent m x) ∧
    (∀ a : Airport, (∀ c ∈ a.name, c ≠ escCh) → (∀ c ∈ a.municipality, c ≠ escCh) →
      stripAnsi (highlightAirport a) = plainAirport a ∧
      stripAnsi (highlightCity a) = plainCity a) ∧
    (∀ t : GoTime,
      stripAnsi (highlightDateRender t) = plainDateRender t ∧
      stripAnsi (highlightT12Render t) = plainT12Render t ∧
      stripAnsi (highlightT24Render t) = plainT24Render t) :=
  ⟨modes_agree_inert,
   fun _ hn hm => ⟨stripAnsi_highlightAirport hn, stripAnsi_highlightCity hn hm⟩,
   fun t => ⟨stripAnsi_highlightDate t, stripAnsi_highlightT12 t,
     stripAnsi_highlightT24 t⟩⟩

/-- C1 witness: the amended round-trip at a concrete token-free input, a
concrete airport record and a concrete timestamp. -/
theorem c1_witness :
    stripAnsi (highlightProcessContent mapABC "go  to  town".data) =
      plainProcessContent mapABC "go  to  town".data ∧
    stripAnsi (highlightAirport apABC) = plainAirport apABC ∧
    stripAnsi (highlightT24Render ⟨2025, 3, 16, 6, 30, 0⟩) =
      plainT24Render ⟨2025, 3, 16, 6, 30, 0⟩ :=
  ⟨c1_roundtrip_amended.1 mapABC _ (by decide) (by decide) (by decide),
   (c1_roundtrip_amended.2.1 apABC (by decide) (by decide)).1,
   (c1_roundtrip_amended.2.2 ⟨2025, 3, 16, 6, 30, 0⟩).2.2⟩

end TextFormatter
